import Mathlib

/-!
Verification of the rights-scoped structural codec of the chopshop repository.

The development shallowly embeds the Go code of the codec:

* `Val` models a Go runtime value as seen through `reflect.Value`: the value
  kinds the codec inspects (struct, slice, map, pointer, string, bool, signed
  and unsigned integers, floats).  A struct value carries, per field, the
  static metadata the codec reads from struct tags (`FieldMeta`), and a
  `StructInfo` recording which marshalling interfaces the struct type
  implements.
* `safeSerialize` / `safeSerializeStruct` / `safeSerializeSlice` embed the
  serializer; `safeMerge` embeds the right-gated merge; `ReadJSON` embeds the
  two-phase decode orchestrator; `HasRight`, `RemoveRight`, `hasItem` embed
  the capability-set operations; `isEmpty`, `parseJSONTag`, `hasJSONOption`,
  `isRecursibleType` embed the helpers in reflect.go.
* `Ty`, `zeroVal` and `decodeVal` model the target type shape and the
  standard library JSON decoder used by phase one of `ReadJSON` (the decoder
  is external to the repository and is modelled from its documented
  behaviour: match each object key against a field by exact wire name and
  then case-insensitively, decode into a zero value, ignore unknown keys).

Machine integers are modelled as `Int`/`Nat` and floats as `Rat`; none of the
verified claims depend on overflow or rounding, only on comparison with zero.
-/

/-- Which marshalling interfaces a struct type implements.  `textMarshaler`
models `src.Interface().(encoding.TextMarshaler)` succeeding in
`safeSerialize`; `unmarshaler` models the check in `isRecursibleType` that the
type (by value or pointer) implements `json.Unmarshaler` or
`encoding.TextUnmarshaler`. -/
structure StructInfo where
  textMarshaler : Bool
  unmarshaler : Bool
  deriving DecidableEq, Repr

/-- The static per-field metadata the codec reads through `reflect`:
the Go field name (`reflect.StructField.Name`, never empty for real Go
fields, and equal to the type name for embedded fields), the raw `json`
struct tag, the `readWrite` tag gating serialization, the `writeRight` tag
gating merge, and whether the field is embedded (`StructField.Anonymous`,
which the codec itself never reads but the external JSON decoder does). -/
structure FieldMeta where
  fname : String
  jsonTag : String
  readWrite : String
  writeRight : String
  anonymous : Bool
  deriving DecidableEq, Repr

mutual
/-- A Go runtime value, restricted to the kinds the codec distinguishes. -/
inductive Val where
  | vInt (n : Int)
  | vUInt (n : Nat)
  | vFloat (q : Rat)
  | vStr (s : String)
  | vBool (b : Bool)
  | vPtrNil
  | vPtr (v : Val)
  | vSlice (elems : ValList)
  | vMap (entries : KVList)
  | vStruct (si : StructInfo) (fields : FieldList)
  deriving DecidableEq
/-- A list of values (a Go slice). -/
inductive ValList where
  | nil
  | cons (v : Val) (rest : ValList)
  deriving DecidableEq
/-- An ordered string-keyed association list: a Go `map[string]interface{}`
(as built by `safeSerializeStruct`) or a decoded JSON object. -/
inductive KVList where
  | nil
  | cons (k : String) (v : Val) (rest : KVList)
  deriving DecidableEq
/-- The fields of a struct value, in declaration order, each with its
static metadata. -/
inductive FieldList where
  | nil
  | cons (m : FieldMeta) (v : Val) (rest : FieldList)
  deriving DecidableEq
end

namespace ValList

def length : ValList → Nat
  | .nil => 0
  | .cons _ rest => 1 + rest.length

end ValList

namespace KVList

def length : KVList → Nat
  | .nil => 0
  | .cons _ _ rest => 1 + rest.length

/-- Whether a key is present. -/
def hasKey : KVList → String → Bool
  | .nil, _ => false
  | .cons k0 _ rest, k => k0 == k || rest.hasKey k

/-- Value at a key, if present (first occurrence). -/
def lookup : KVList → String → Option Val
  | .nil, _ => none
  | .cons k0 v rest, k => if k0 == k then some v else rest.lookup k

end KVList

namespace FieldList

def length : FieldList → Nat
  | .nil => 0
  | .cons _ _ rest => 1 + rest.length

/-- Field (metadata, value) at an index. -/
def nth : FieldList → Nat → Option (FieldMeta × Val)
  | .nil, _ => none
  | .cons m v _, 0 => some (m, v)
  | .cons _ _ rest, i + 1 => rest.nth i

/-- Replace the value at an index, keeping the metadata. -/
def setVal : FieldList → Nat → Val → FieldList
  | .nil, _, _ => .nil
  | .cons m _ rest, 0, v => .cons m v rest
  | .cons m v0 rest, i + 1, v => .cons m v0 (rest.setVal i v)

end FieldList

/-! ## String helpers

`String.splitOn` and friends do not reduce inside the kernel, so the tag
parsing from reflect.go is embedded over `List Char`. -/

/-- Split a character list at the first comma: the part before it, and
(if a comma exists) the part after it.  Models `strings.Index(tag, ",")`
followed by the two slices `tag[:idx]` and `tag[idx+1:]`. -/
def splitAtComma : List Char → List Char × Option (List Char)
  | [] => ([], none)
  | c :: cs =>
    if c = ',' then ([], some cs)
    else
      let (before, after) := splitAtComma cs
      (c :: before, after)

/-- Embeds `parseJSONTag` (reflect.go): split the tag at the first comma
into wire name and options; a tag without a comma has empty options. -/
def parseJSONTag (tag : String) : String × String :=
  match splitAtComma tag.data with
  | (_, none) => (tag, "")
  | (name, some opts) => (String.mk name, String.mk opts)

/-- All comma-separated chunks of a character list. -/
def commaChunks : List Char → List (List Char)
  | [] => [[]]
  | c :: cs =>
    if c = ',' then [] :: commaChunks cs
    else
      match commaChunks cs with
      | [] => [[c]]
      | chunk :: rest => (c :: chunk) :: rest

/-- Embeds `hasJSONOption` (reflect.go): scan the comma-separated `opts`
for a chunk equal to `key`.  The Go loop never compares a trailing empty
chunk (it stops once the remainder is empty); for the nonempty keys the
codec uses ("omitempty") that chunk can never match, so membership over
all chunks is the same function. -/
def hasJSONOption (key opts : String) : Bool :=
  if opts.length = 0 then false
  else (commaChunks opts.data).any (fun chunk => chunk == key.data)

/-- Modelled from the spec: the wire-name case transform (upper/lower camel
case to lower snake case) that the serializer performs via the external
`snaker.CamelToSnake` library, which is not part of this repository.  Each
uppercase letter is lowercased and, when not the first character, prefixed
with an underscore. -/
def snakeChars : Bool → List Char → List Char
  | _, [] => []
  | first, c :: cs =>
    if c.isUpper then
      (if first then [c.toLower] else ['_', c.toLower]) ++ snakeChars false cs
    else c.toLower :: snakeChars false cs

/-- Modelled from the spec: see `snakeChars`. -/
def camelToSnake (s : String) : String :=
  String.mk (snakeChars true s.data)

/-- ASCII case-insensitive equality.  Models the case-insensitive field
match performed by the external `encoding/json` decoder. -/
def equalFold (a b : String) : Bool :=
  a.data.map Char.toLower == b.data.map Char.toLower

/-! ## Capability set -/

/-- Embeds `Principal` (a user identity): name, numeric id, and the ordered
list of granted right names. -/
structure Principal where
  username : String
  userID : Nat
  rights : List String
  deriving DecidableEq, Repr

/-- Embeds `hasItem` (middleware.go): linear scan for an exact string match. -/
def hasItem (item : String) : List String → Bool
  | [] => false
  | v :: rest => if v == item then true else hasItem item rest

/-- Embeds `RequestContext.HasRight`: false when there is no principal,
otherwise an exact-match membership test on the principal's rights. -/
def HasRight (principal : Option Principal) (right : String) : Bool :=
  match principal with
  | none => false
  | some p => hasItem right p.rights

/-- The loop of Go's `sort.Search(n, f)` (standard library, external to the
repository): binary search for the least index at which `f` holds, assuming
`f` is monotone.  `i` and `j` bracket the search; each step halves the
interval, so `n` steps of fuel always suffice. -/
def sortSearchGo (f : Nat → Bool) : Nat → Nat → Nat → Nat
  | 0, i, _ => i
  | fuel + 1, i, j =>
    if i < j then
      let h := (i + j) / 2
      if !f h then sortSearchGo f fuel (h + 1) j
      else sortSearchGo f fuel i h
    else i

/-- Go's `sort.Search(n, f)`. -/
def sortSearch (n : Nat) (f : Nat → Bool) : Nat :=
  sortSearchGo f n 0 n

/-- Embeds `RequestContext.RemoveRight`: no-op when unauthenticated;
otherwise locate the right with `sort.Search` over the equality predicate
`rights[i] == right` and, if the returned index is in range, splice it out
with `append(rights[:i], rights[i+1:]...)`. -/
def RemoveRight (principal : Option Principal) (right : String) : Option Principal :=
  match principal with
  | none => none
  | some p =>
    let rights := p.rights
    let i := sortSearch rights.length (fun k => rights.getD k "" == right)
    if rights.length ≤ i then some p
    else some { p with rights := rights.take i ++ rights.drop (i + 1) }

/-! ## reflect.go helpers -/

/-- Embeds `isEmpty` (reflect.go), case for case: sequence, mapping and text
kinds are empty iff their length is zero; booleans iff false; signed and
unsigned integers and floats iff zero; pointers iff nil; every other kind
(here: struct) falls through to the default `false`. -/
def isEmpty : Val → Bool
  | .vSlice elems => elems.length == 0
  | .vMap entries => entries.length == 0
  | .vStr s => s.length == 0
  | .vBool b => !b
  | .vInt n => n == 0
  | .vUInt n => n == 0
  | .vFloat q => q == 0
  | .vPtrNil => true
  | .vPtr _ => false
  | .vStruct _ _ => false

/-- Embeds `isRecursibleType`: true exactly for struct-kind values whose
type does not implement (by value or pointer) `json.Unmarshaler` or
`encoding.TextUnmarshaler`. -/
def isRecursibleType : Val → Bool
  | .vStruct si _ => !si.unmarshaler
  | _ => false

/-! ## Structural merger -/

mutual
/-- Embeds `RequestContext.safeMerge`: copy the fields of `src` onto `dst`
provided the context holds the field's `writeRight`.  The Go function reads
`dst.NumField()` on a non-struct value, which panics; the panic is modelled
as an error.  The result is the updated destination value (Go mutates `dst`
in place). -/
def safeMerge (ctx : Option Principal) : Val → Val → Except String Val
  | .vStruct _ fs, .vStruct dsi gs => Except.map (Val.vStruct dsi) (mergeFields ctx fs gs)
  | _, _ => .error "reflect: NumField of non-struct value"
/-- The field loop of `safeMerge`, driven by the destination's fields (the
tag is read from the destination's type) with the source field at the same
index; a missing source field models the `src.Field(i)` panic. -/
def mergeFields (ctx : Option Principal) : FieldList → FieldList → Except String FieldList
  | _, .nil => .ok .nil
  | .nil, .cons _ _ _ => .error "reflect: Field index out of range"
  | .cons _ sv srest, .cons dm dv drest =>
    if dm.writeRight == "" || HasRight ctx dm.writeRight then
      if isRecursibleType sv then
        match safeMerge ctx sv dv with
        | .error e => .error e
        | .ok v =>
          match mergeFields ctx srest drest with
          | .error e => .error e
          | .ok rest => .ok (.cons dm v rest)
      else
        match mergeFields ctx srest drest with
        | .error e => .error e
        | .ok rest => .ok (.cons dm sv rest)
    else
      match mergeFields ctx srest drest with
      | .error e => .error e
      | .ok rest => .ok (.cons dm dv rest)
end

/-- Embeds `RequestContext.ReadJSON`.  `dec` stands for the outcome of phase
one: `ReadJSONUnsafe` decoding the request body into a freshly allocated
zero scratch value of the target's type (the decoding itself is performed by
the external `encoding/json`; see `decodeVal` for its model).  On a decode
error the error is returned before any mutation of the target; otherwise the
scratch value is merged into the target through `safeMerge`.  Go mutates the
target in place; the model returns the pair (error, final target value). -/
def ReadJSON (ctx : Option Principal) (dec : Except String Val) (target : Val) :
    Option String × Val :=
  match dec with
  | .error e => (some e, target)
  | .ok scratch =>
    match safeMerge ctx scratch target with
    | .error e => (some e, target)
    | .ok merged => (none, merged)

/-! ## Structural serializer -/

/-- Writing `out[name] = val` on a Go map: replace the value at an existing
key in place, otherwise append the binding. -/
def updateKV : KVList → String → Val → KVList
  | .nil, k, v => .cons k v .nil
  | .cons k0 v0 rest, k, v =>
    if k0 == k then .cons k0 v rest else .cons k0 v0 (updateKV rest k v)

mutual
/-- Embeds `RequestContext.safeSerialize`, dispatching on the value's kind:
slices serialize elementwise; structs serialize atomically when they
implement `encoding.TextMarshaler` and field by field otherwise; pointers
dereference and recurse — on a nil pointer the source calls
`src.Type().Kind()` on the zero `reflect.Value` produced by `Elem()`, a
panic, modelled as an error; every other kind passes through unchanged.
The source can recurse without structural descent (see the anonymous-field
branch of `safeSerializeStruct`), so the model carries fuel, decremented on
every call; exhaustion is an error distinct from the panic. -/
def safeSerialize (ctx : Option Principal) : Nat → Val → Except String Val
  | 0, _ => .error "serializer: out of fuel"
  | fuel + 1, v =>
    match v with
    | .vSlice elems => Except.map Val.vSlice (safeSerializeSlice ctx fuel elems)
    | .vStruct si fs =>
      if si.textMarshaler then .ok (.vStruct si fs)
      else Except.map Val.vMap (safeSerializeStruct ctx fuel fs fs .nil)
    | .vPtr inner => safeSerialize ctx fuel inner
    | .vPtrNil => .error "reflect: call of reflect.Value.Type on zero Value"
    | other => .ok other

/-- Embeds `RequestContext.safeSerializeStruct`'s field loop.  `all` is the
full field list of the struct being serialized (`src` in the source), `rem`
the fields still to visit, `out` the map built so far.  Per field, in
source order: skip unless `readWrite` is unset or held; parse the json tag;
skip on wire name "-" or on `omitempty` with an empty value; when both the
parsed name and the reflected field name are empty, re-serialize the whole
struct into the same map and continue (in the source this recursion never
descends, hence the fuel); otherwise derive the wire name (snake case of
the field name when the tag gives none), serialize the field value and
store it in the map. -/
def safeSerializeStruct (ctx : Option Principal) :
    Nat → FieldList → FieldList → KVList → Except String KVList
  | 0, _, _, _ => .error "serializer: out of fuel"
  | fuel + 1, all, rem, out =>
    match rem with
    | .nil => .ok out
    | .cons m v rest =>
      if m.readWrite == "" || HasRight ctx m.readWrite then
        let (name, opts) := parseJSONTag m.jsonTag
        if name == "-" || (hasJSONOption "omitempty" opts && isEmpty v) then
          safeSerializeStruct ctx fuel all rest out
        else if name == "" && m.fname == "" then
          match safeSerializeStruct ctx fuel all all out with
          | .error e => .error e
          | .ok out2 => safeSerializeStruct ctx fuel all rest out2
        else
          let wire := if name == "" then camelToSnake m.fname else name
          match safeSerialize ctx fuel v with
          | .error e => .error e
          | .ok w => safeSerializeStruct ctx fuel all rest (updateKV out wire w)
      else
        safeSerializeStruct ctx fuel all rest out

/-- Embeds `RequestContext.safeSerializeSlice`: serialize each element in
order, aborting on the first error. -/
def safeSerializeSlice (ctx : Option Principal) : Nat → ValList → Except String ValList
  | 0, _ => .error "serializer: out of fuel"
  | _ + 1, .nil => .ok .nil
  | fuel + 1, .cons v rest =>
    match safeSerialize ctx fuel v with
    | .error e => .error e
    | .ok w => Except.map (ValList.cons w) (safeSerializeSlice ctx fuel rest)
end

/-- The wire name `safeSerializeStruct` derives for a field: the json tag's
name part when present, otherwise the snake-case transform of the reflected
field name. -/
def wireName (m : FieldMeta) : String :=
  let name := (parseJSONTag m.jsonTag).1
  if name == "" then camelToSnake m.fname else name

/-! ## Target type shapes and the external JSON decoder

`ReadJSON`'s first phase decodes the wire body into a freshly allocated
zero value of the target's type with `encoding/json`.  That decoder is
standard library code, external to this repository; it is modelled here
from its documented behaviour over the same value universe. -/

mutual
/-- The shape of a Go type, as far as the codec distinguishes values. -/
inductive Ty where
  | tInt
  | tUInt
  | tFloat
  | tStr
  | tBool
  | tPtr (elem : Ty)
  | tSlice (elem : Ty)
  | tMap (elem : Ty)
  | tStruct (si : StructInfo) (fields : FieldTyList)
  deriving DecidableEq
/-- Field metadata and types of a struct type, in declaration order. -/
inductive FieldTyList where
  | nil
  | cons (m : FieldMeta) (t : Ty) (rest : FieldTyList)
  deriving DecidableEq
end

namespace FieldTyList

def length : FieldTyList → Nat
  | .nil => 0
  | .cons _ _ rest => 1 + rest.length

/-- Field (metadata, type) at an index. -/
def nth : FieldTyList → Nat → Option (FieldMeta × Ty)
  | .nil, _ => none
  | .cons m t _, 0 => some (m, t)
  | .cons _ _ rest, i + 1 => rest.nth i

end FieldTyList

mutual
/-- The zero value of a type: what `reflect.New(ty).Elem()` produces as the
scratch instance in `ReadJSON`. -/
def zeroVal : Ty → Val
  | .tInt => .vInt 0
  | .tUInt => .vUInt 0
  | .tFloat => .vFloat 0
  | .tStr => .vStr ""
  | .tBool => .vBool false
  | .tPtr _ => .vPtrNil
  | .tSlice _ => .vSlice .nil
  | .tMap _ => .vMap .nil
  | .tStruct si fs => .vStruct si (zeroFields fs)
/-- Zero values for every field of a struct type. -/
def zeroFields : FieldTyList → FieldList
  | .nil => .nil
  | .cons m t rest => .cons m (zeroVal t) (zeroFields rest)
end

mutual
/-- Whether a value inhabits a type shape: kinds line up, struct values
carry the type's `StructInfo` and field metadata, and every component is
again well typed. -/
def hasTy : Val → Ty → Bool
  | .vInt _, .tInt => true
  | .vUInt _, .tUInt => true
  | .vFloat _, .tFloat => true
  | .vStr _, .tStr => true
  | .vBool _, .tBool => true
  | .vPtrNil, .tPtr _ => true
  | .vPtr v, .tPtr t => hasTy v t
  | .vSlice elems, .tSlice t => elemsHaveTy elems t
  | .vMap entries, .tMap t => entriesHaveTy entries t
  | .vStruct si fs, .tStruct si' tfs => si == si' && fieldsHaveTy fs tfs
  | _, _ => false
def elemsHaveTy : ValList → Ty → Bool
  | .nil, _ => true
  | .cons v rest, t => hasTy v t && elemsHaveTy rest t
def entriesHaveTy : KVList → Ty → Bool
  | .nil, _ => true
  | .cons _ v rest, t => hasTy v t && entriesHaveTy rest t
def fieldsHaveTy : FieldList → FieldTyList → Bool
  | .nil, .nil => true
  | .cons m v frest, .cons m' t trest => m == m' && hasTy v t && fieldsHaveTy frest trest
  | _, _ => false
end

/-- The name under which the external JSON decoder indexes a field: the json
tag's name when it gives one, otherwise the Go field name. -/
def fieldKeyOf (m : FieldMeta) : String :=
  let name := (parseJSONTag m.jsonTag).1
  if name == "" then m.fname else name

/-- First field whose decoder key matches `k` exactly, skipping fields
suppressed with a json name of "-". -/
def findExactFrom : FieldTyList → String → Nat → Option Nat
  | .nil, _, _ => none
  | .cons m _ rest, k, i =>
    if (parseJSONTag m.jsonTag).1 != "-" && fieldKeyOf m == k then some i
    else findExactFrom rest k (i + 1)

/-- First field whose decoder key matches `k` case-insensitively, skipping
suppressed fields. -/
def findFoldFrom : FieldTyList → String → Nat → Option Nat
  | .nil, _, _ => none
  | .cons m _ rest, k, i =>
    if (parseJSONTag m.jsonTag).1 != "-" && equalFold (fieldKeyOf m) k then some i
    else findFoldFrom rest k (i + 1)

/-- Models the field resolution of `encoding/json` for an object key: an
exact match on the decoder key wins, then a case-insensitive one; a `-`
json name removes the field from consideration.  (The decoder's promotion
of embedded fields is not modelled; the round-trip theorem below excludes
embedded fields.) -/
def decodeMatch (fs : FieldTyList) (k : String) : Option Nat :=
  match findExactFrom fs k 0 with
  | some i => some i
  | none => findFoldFrom fs k 0

mutual
/-- Models the external `encoding/json` decoder against a type shape:
scalars must match their kind; a pointer allocates and decodes its pointee
(null producing a nil pointer); slices and maps decode componentwise; a
plain struct decodes from an object by folding its keys over the zero
value; a type with a custom unmarshaler runs arbitrary user code, which is
outside the model, and is reported as an error.  Carries fuel, decremented
on every call; all theorems quantify over sufficient fuel. -/
def decodeVal : Nat → Ty → Val → Except String Val
  | 0, _, _ => .error "decoder: out of fuel"
  | fuel + 1, ty, w =>
    match ty, w with
    | .tInt, .vInt n => .ok (.vInt n)
    | .tUInt, .vUInt n => .ok (.vUInt n)
    | .tFloat, .vFloat q => .ok (.vFloat q)
    | .tStr, .vStr s => .ok (.vStr s)
    | .tBool, .vBool b => .ok (.vBool b)
    | .tPtr _, .vPtrNil => .ok .vPtrNil
    | .tPtr t, w' => Except.map Val.vPtr (decodeVal fuel t w')
    | .tSlice t, .vSlice ws => Except.map Val.vSlice (decodeElems fuel t ws)
    | .tMap t, .vMap kvs => Except.map Val.vMap (decodeEntries fuel t kvs)
    | .tStruct si tfs, .vMap kvs =>
      if si.unmarshaler then .error "decoder: custom unmarshaler outside model"
      else Except.map (Val.vStruct si) (decodeObj fuel tfs kvs (zeroFields tfs))
    | _, _ => .error "json: cannot unmarshal value into target"
def decodeElems : Nat → Ty → ValList → Except String ValList
  | 0, _, _ => .error "decoder: out of fuel"
  | _ + 1, _, .nil => .ok .nil
  | fuel + 1, t, .cons w rest =>
    match decodeVal fuel t w with
    | .error e => .error e
    | .ok v => Except.map (ValList.cons v) (decodeElems fuel t rest)
def decodeEntries : Nat → Ty → KVList → Except String KVList
  | 0, _, _ => .error "decoder: out of fuel"
  | _ + 1, _, .nil => .ok .nil
  | fuel + 1, t, .cons k w rest =>
    match decodeVal fuel t w with
    | .error e => .error e
    | .ok v => Except.map (KVList.cons k v) (decodeEntries fuel t rest)
/-- Fold the keys of a decoded object over the current field values:
a key matching no field is ignored, a matching one decodes the value at
the field's type and stores it. -/
def decodeObj : Nat → FieldTyList → KVList → FieldList → Except String FieldList
  | 0, _, _, _ => .error "decoder: out of fuel"
  | _ + 1, _, .nil, cur => .ok cur
  | fuel + 1, tfs, .cons k w rest, cur =>
    match decodeMatch tfs k with
    | none => decodeObj fuel tfs rest cur
    | some i =>
      match tfs.nth i with
      | none => decodeObj fuel tfs rest cur
      | some (_, t) =>
        match decodeVal fuel t w with
        | .error e => .error e
        | .ok v => decodeObj fuel tfs rest (cur.setVal i v)
end

/-! ## Emptiness predicate -/

/-- The emptiness rule table as the spec states it, written from the spec's
categories for comparison with the embedded `isEmpty`: sequences, mappings
and text are empty iff their length is zero; booleans iff false; signed and
unsigned integers iff zero; floats iff zero; optional references iff absent;
anything else never empty. -/
def isEmptySpec (v : Val) : Bool :=
  match v with
  | .vSlice elems => elems.length == 0
  | .vMap entries => entries.length == 0
  | .vStr s => s.length == 0
  | .vBool b => b == false
  | .vInt n => n == 0
  | .vUInt n => n == 0
  | .vFloat q => q == 0
  | .vPtrNil => true
  | .vPtr _ => false
  | _ => false

/-! ## Merge: totality and field-wise behaviour -/

mutual
/-- Two values of the same Go type, to the depth the merger inspects:
kinds agree, and struct values agree on `StructInfo`, field metadata and,
recursively, field value types.  (In Go this is automatic: `safeMerge` is
always called with `src` and `dst` of one type.) -/
def compat : Val → Val → Bool
  | .vInt _, .vInt _ => true
  | .vUInt _, .vUInt _ => true
  | .vFloat _, .vFloat _ => true
  | .vStr _, .vStr _ => true
  | .vBool _, .vBool _ => true
  | .vPtrNil, .vPtrNil => true
  | .vPtrNil, .vPtr _ => true
  | .vPtr _, .vPtrNil => true
  | .vPtr _, .vPtr _ => true
  | .vSlice _, .vSlice _ => true
  | .vMap _, .vMap _ => true
  | .vStruct si fs, .vStruct si' gs => si == si' && compatFields fs gs
  | _, _ => false
/-- Pairwise `compat` with identical metadata. -/
def compatFields : FieldList → FieldList → Bool
  | .nil, .nil => true
  | .cons m v frest, .cons m' w grest => m == m' && compat v w && compatFields frest grest
  | _, _ => false
end

/-! ## Serializer: read-gate invariant -/

/-- Whether some field of the list passes the read gate (its `readWrite`
tag is unset, or the context holds that right) and resolves to wire name
`k`. -/
def anyFieldElig (ctx : Option Principal) : FieldList → String → Bool
  | .nil, _ => false
  | .cons m _ rest, k =>
    ((m.readWrite == "" || HasRight ctx m.readWrite) && wireName m == k)
      || anyFieldElig ctx rest k

/-! ## Unauthenticated contexts deny everything -/

/-- Whether some field of the list has no `readWrite` tag at all and
resolves to wire name `k`. -/
def anyUngatedField : FieldList → String → Bool
  | .nil, _ => false
  | .cons m _ rest, k =>
    (m.readWrite == "" && wireName m == k) || anyUngatedField rest k

/-! ## Round trip: sizes, goodness, and auxiliary structure -/

mutual
/-- Structural size of a value; serializer fuel exceeding it never runs out. -/
def szVal : Val → Nat
  | .vInt _ => 1
  | .vUInt _ => 1
  | .vFloat _ => 1
  | .vStr _ => 1
  | .vBool _ => 1
  | .vPtrNil => 1
  | .vPtr v => 1 + szVal v
  | .vSlice es => 1 + szElems es
  | .vMap kvs => 1 + szEntries kvs
  | .vStruct _ fs => 1 + szFields fs
def szElems : ValList → Nat
  | .nil => 1
  | .cons v rest => 1 + szVal v + szElems rest
def szEntries : KVList → Nat
  | .nil => 1
  | .cons _ v rest => 1 + szVal v + szEntries rest
def szFields : FieldList → Nat
  | .nil => 1
  | .cons _ v rest => 1 + szVal v + szFields rest
end

mutual
/-- Structural size of a type shape. -/
def szTy : Ty → Nat
  | .tInt => 1
  | .tUInt => 1
  | .tFloat => 1
  | .tStr => 1
  | .tBool => 1
  | .tPtr t => 1 + szTy t
  | .tSlice t => 1 + szTy t
  | .tMap t => 1 + szTy t
  | .tStruct _ fs => 1 + szTfs fs
def szTfs : FieldTyList → Nat
  | .nil => 1
  | .cons _ t rest => 1 + szTy t + szTfs rest
end

mutual
/-- Values the modelled decoder maps to themselves at the given type:
scalar kinds at their own type, and slices and maps componentwise — no
struct anywhere (a struct wire value is not an object) and no pointer
(a pointer's wire form is its pointee's, not itself).  Serialized map
values pass through `safeSerialize` untouched, so the round trip needs
exactly this property of them. -/
def rawRoundTrips : Ty → Val → Bool
  | .tInt, .vInt _ => true
  | .tUInt, .vUInt _ => true
  | .tFloat, .vFloat _ => true
  | .tStr, .vStr _ => true
  | .tBool, .vBool _ => true
  | .tSlice t, .vSlice es => rawElemsRT t es
  | .tMap t, .vMap kvs => rawEntriesRT t kvs
  | _, _ => false
def rawElemsRT : Ty → ValList → Bool
  | _, .nil => true
  | t, .cons v rest => rawRoundTrips t v && rawElemsRT t rest
def rawEntriesRT : Ty → KVList → Bool
  | _, .nil => true
  | t, .cons _ v rest => rawRoundTrips t v && rawEntriesRT t rest
end

/-- Whether some field in the list resolves to wire name `k`. -/
def hasWireT : FieldTyList → String → Bool
  | .nil, _ => false
  | .cons m _ rest, k => wireName m == k || hasWireT rest k

/-- All fields resolve to pairwise distinct wire names. -/
def keysDistinctT : FieldTyList → Bool
  | .nil => true
  | .cons m _ rest => !hasWireT rest (wireName m) && keysDistinctT rest

/-- No field's wire name is already a key of the map. -/
def keysFreshT : FieldTyList → KVList → Bool
  | .nil, _ => true
  | .cons m _ rest, out => !out.hasKey (wireName m) && keysFreshT rest out

/-- Starting at index `i`, every field's wire name resolves through
`decodeMatch` back to that field's own index. -/
def namesResolveFrom (all : FieldTyList) : FieldTyList → Nat → Bool
  | .nil, _ => true
  | .cons m _ rest, i =>
    decodeMatch all (wireName m) == some i && namesResolveFrom all rest (i + 1)

/-- Every field's wire name resolves back to itself in the decoder. -/
def namesResolve (tfs : FieldTyList) : Bool :=
  namesResolveFrom tfs tfs 0

/-- The read and write gates pass, the field is not suppressed, not
embedded, and not the pathological empty-name case that sends the
serializer into its non-descending recursion. -/
def goodMeta (ctx : Option Principal) (m : FieldMeta) : Bool :=
  (m.readWrite == "" || HasRight ctx m.readWrite)
    && (m.writeRight == "" || HasRight ctx m.writeRight)
    && ((parseJSONTag m.jsonTag).1 != "-")
    && !((parseJSONTag m.jsonTag).1 == "" && m.fname == "")
    && !m.anonymous

mutual
/-- The domain of the round-trip theorem: the value inhabits the type
shape; every capability named by a read or write gate is held; no field is
suppressed or embedded; struct types use the generic walker (no custom
marshaler or unmarshaler) and their wire names are pairwise distinct and
decode back to their own field; pointers are non-nil; map entries are
shapes the decoder reproduces identically. -/
def goodVal (ctx : Option Principal) : Ty → Val → Bool
  | .tInt, .vInt _ => true
  | .tUInt, .vUInt _ => true
  | .tFloat, .vFloat _ => true
  | .tStr, .vStr _ => true
  | .tBool, .vBool _ => true
  | .tPtr t, .vPtr v => goodVal ctx t v
  | .tSlice t, .vSlice es => goodElems ctx t es
  | .tMap t, .vMap kvs => rawEntriesRT t kvs
  | .tStruct si tfs, .vStruct si' fs =>
    si == si' && !si.textMarshaler && !si.unmarshaler
      && namesResolve tfs && keysDistinctT tfs && goodFields ctx tfs fs
  | _, _ => false
def goodElems (ctx : Option Principal) : Ty → ValList → Bool
  | _, .nil => true
  | t, .cons v rest => goodVal ctx t v && goodElems ctx t rest
def goodFields (ctx : Option Principal) : FieldTyList → FieldList → Bool
  | .nil, .nil => true
  | .cons mt t trest, .cons mv v vrest =>
    mt == mv && goodMeta ctx mt && goodVal ctx t v && goodFields ctx trest vrest
  | _, _ => false
end

/-- List concatenation on wire trees. -/
def kvAppend : KVList → KVList → KVList
  | .nil, es => es
  | .cons k v rest, es => .cons k v (kvAppend rest es)

/-- Drop the first `i` fields of a struct type's field list. -/
def FieldTyList.dropN : Nat → FieldTyList → FieldTyList
  | 0, fs => fs
  | _ + 1, .nil => .nil
  | i + 1, .cons _ _ rest => FieldTyList.dropN i rest

/-- Drop the first `i` fields of a struct value's field list. -/
def FieldList.dropN : Nat → FieldList → FieldList
  | 0, fs => fs
  | _ + 1, .nil => .nil
  | i + 1, .cons _ _ rest => FieldList.dropN i rest

/-- The wire entries the serializer emits for a struct's fields, together
with what the decoder recovers from each: fields are visited in order;
an omit-on-empty field with an empty (hence zero) value emits nothing; any
other field emits its wire name with a serialized value the decoder maps
back to the original field value at the field's type. -/
inductive Emits (ctx : Option Principal) : FieldTyList → FieldList → KVList → Prop
  | nil : Emits ctx .nil .nil .nil
  | skip (m : FieldMeta) (t : Ty) (v : Val) (trest : FieldTyList) (frest : FieldList)
      (es : KVList) (hz : v = zeroVal t) (h : Emits ctx trest frest es) :
      Emits ctx (.cons m t trest) (.cons m v frest) es
  | emit (m : FieldMeta) (t : Ty) (v w : Val) (trest : FieldTyList) (frest : FieldList)
      (es : KVList)
      (hdec : ∀ dfuel, szTy t + szVal w ≤ dfuel → decodeVal dfuel t w = .ok v)
      (hsz : szVal w ≤ szVal v) (h : Emits ctx trest frest es) :
      Emits ctx (.cons m t trest) (.cons m v frest) (.cons (wireName m) w es)

/-! ## Claim theorems: direct evaluations -/

/-- C4.  The claim says serialization of a record with an absent (nil)
optional reference completes without fault and emits a wire null.  The code
instead dereferences unconditionally: `safeSerialize` calls `src.Elem()` on
the nil pointer and then `src.Type()` on the resulting zero `reflect.Value`,
which panics — the spec itself flags this as a logic error in the source.
Evaluating the embedded serializer on a record with one nil pointer field
yields the modelled panic, not a wire null. -/
theorem nil_reference_serialization_faults :
    safeSerialize none 5
      (.vStruct ⟨false, false⟩ (.cons ⟨"P", "", "", "", false⟩ .vPtrNil .nil))
      = .error "reflect: call of reflect.Value.Type on zero Value" := rfl

/-- C3.  The claim says embedded (anonymous) record fields are flattened
into the enclosing output tree.  The source's flattening branch is guarded
by `field.Name == ""`, but Go reflection reports an embedded field's name
as its type name (here "Inner"), never the empty string, so the branch is
dead and the embedded record is serialized nested under the snake-case of
its type name: serializing a record embedding `Inner{X:7}` yields
`{"inner": {"x": 7}}` — the key "x" does not appear at the outermost
level, and no key is flattened. -/
theorem embedded_field_is_nested_not_flattened :
    safeSerialize none 5
        (.vStruct ⟨false, false⟩
          (.cons ⟨"Inner", "", "", "", true⟩
            (.vStruct ⟨false, false⟩ (.cons ⟨"X", "", "", "", false⟩ (.vInt 7) .nil))
            .nil))
      = .ok (.vMap (.cons "inner" (.vMap (.cons "x" (.vInt 7) .nil)) .nil))
    ∧ KVList.hasKey (.cons "inner" (.vMap (.cons "x" (.vInt 7) .nil)) .nil) "x" = false :=
  ⟨rfl, rfl⟩

/-- C6.  The claim says `RemoveRight(name)` on an authenticated context
whose rights contain `name` removes it, so `HasRight(name)` afterwards is
false.  The source locates the right with `sort.Search` over the
non-monotone predicate `rights[i] == right`; binary search over such a
predicate can miss the element.  With rights `["a", "b"]`, removing "a"
probes only index 1, returns 2 (out of range), and leaves the rights
unchanged, so `HasRight "a"` is still true afterwards. -/
theorem remove_right_misses_present_right :
    RemoveRight (some ⟨"u", 1, ["a", "b"]⟩) "a" = some ⟨"u", 1, ["a", "b"]⟩
    ∧ HasRight (RemoveRight (some ⟨"u", 1, ["a", "b"]⟩) "a") "a" = true :=
  ⟨rfl, rfl⟩

/-- C5.  `ReadJSON` decodes the wire body into a fresh scratch value first;
when that decode fails the error is returned before `safeMerge` runs, so
the target value is left exactly as it was, whatever the context, error and
target. -/
theorem read_json_decode_error_leaves_target_unchanged
    (ctx : Option Principal) (e : String) (target : Val) :
    ReadJSON ctx (.error e) target = (some e, target) := rfl

/-- A string is empty exactly when its length is zero. -/
theorem string_length_zero_iff (s : String) : s.length = 0 ↔ s = "" := by
  constructor
  · intro hl
    have : s.data = [] := List.length_eq_zero.mp hl
    cases s
    simp_all
  · intro h
    subst h
    rfl

/-- C8.  `isEmpty` classifies values exactly per the spec's rule table, and
a field whose json options request `omitempty` is omitted from the
serialized output exactly when its value is empty: for any string `s` and
any fuel, a record with one field tagged `json:"f,omitempty"` serializes to
the empty wire tree when `s = ""` and to `{"f": s}` otherwise. -/
theorem empty_classification_and_omitempty :
    (∀ v : Val, isEmpty v = isEmptySpec v)
    ∧ (∀ (fuel : Nat) (s : String),
        safeSerialize none (fuel + 3)
          (.vStruct ⟨false, false⟩ (.cons ⟨"F", "f,omitempty", "", "", false⟩ (.vStr s) .nil))
        = .ok (.vMap (if s = "" then .nil else .cons "f" (.vStr s) .nil))) := by
  constructor
  · intro v
    cases v <;> simp [isEmpty, isEmptySpec]
  · intro fuel s
    by_cases h : s = ""
    · subst h
      rfl
    · have hb : (s.length == 0) = false := by
        simp only [beq_eq_false_iff_ne, ne_eq]
        exact fun hl => h ((string_length_zero_iff s).mp hl)
      simp only [safeSerialize, safeSerializeStruct, safeSerializeSlice, isEmpty,
        parseJSONTag, hasJSONOption, hb, h, if_false]
      rfl

mutual
/-- On struct values of the same Go type, `safeMerge` never returns an
error. -/
theorem safeMerge_ok_of_compat (ctx : Option Principal) (si : StructInfo)
    (fs : FieldList) (si' : StructInfo) (gs : FieldList)
    (hc : compat (.vStruct si fs) (.vStruct si' gs) = true) :
    ∃ r, safeMerge ctx (.vStruct si fs) (.vStruct si' gs) = .ok r := by
  simp only [compat, Bool.and_eq_true, beq_iff_eq] at hc
  obtain ⟨rest, hrest⟩ := mergeFields_ok_of_compat ctx fs gs hc.2
  exact ⟨.vStruct si' rest, by simp [safeMerge, hrest, Except.map]⟩

/-- On type-compatible field lists, the merge loop never returns an error. -/
theorem mergeFields_ok_of_compat (ctx : Option Principal) (fs gs : FieldList)
    (hc : compatFields fs gs = true) :
    ∃ out, mergeFields ctx fs gs = .ok out := by
  cases fs with
  | nil =>
    cases gs with
    | nil => exact ⟨.nil, rfl⟩
    | cons dm dv drest => simp [compatFields] at hc
  | cons sm sv srest =>
    cases gs with
    | nil => exact ⟨.nil, rfl⟩
    | cons dm dv drest =>
      simp only [compatFields, Bool.and_eq_true, beq_iff_eq] at hc
      obtain ⟨rest, hrest⟩ := mergeFields_ok_of_compat ctx srest drest hc.2
      cases hw : (dm.writeRight == "" || HasRight ctx dm.writeRight) with
      | false => exact ⟨.cons dm dv rest, by simp [mergeFields, hw, hrest]⟩
      | true =>
        cases hr : isRecursibleType sv with
        | false => exact ⟨.cons dm sv rest, by simp [mergeFields, hw, hr, hrest]⟩
        | true =>
          cases sv with
          | vStruct si2 fs2 =>
            cases dv with
            | vStruct si3 gs3 =>
              obtain ⟨r, hmr⟩ := safeMerge_ok_of_compat ctx si2 fs2 si3 gs3 hc.1.2
              exact ⟨.cons dm r rest, by simp [mergeFields, hw, hr, hmr, hrest]⟩
            | vInt n => simp [compat] at hc
            | vUInt n => simp [compat] at hc
            | vFloat q => simp [compat] at hc
            | vStr s => simp [compat] at hc
            | vBool b => simp [compat] at hc
            | vPtrNil => simp [compat] at hc
            | vPtr w => simp [compat] at hc
            | vSlice es => simp [compat] at hc
            | vMap kvs => simp [compat] at hc
          | vInt n => simp [isRecursibleType] at hr
          | vUInt n => simp [isRecursibleType] at hr
          | vFloat q => simp [isRecursibleType] at hr
          | vStr s => simp [isRecursibleType] at hr
          | vBool b => simp [isRecursibleType] at hr
          | vPtrNil => simp [isRecursibleType] at hr
          | vPtr w => simp [isRecursibleType] at hr
          | vSlice es => simp [isRecursibleType] at hr
          | vMap kvs => simp [isRecursibleType] at hr
end

/-- C10.  For a scratch and a target of the same struct type and any
capability set, the merge phase itself never fails: `safeMerge` returns
nil, and consequently `ReadJSON` with a successfully decoded body never
reports an error from the merge. -/
theorem merge_phase_never_errors (ctx : Option Principal) (si : StructInfo)
    (fs gs : FieldList) (hc : compat (.vStruct si fs) (.vStruct si gs) = true) :
    (safeMerge ctx (.vStruct si fs) (.vStruct si gs)).isOk = true
    ∧ (ReadJSON ctx (.ok (.vStruct si fs)) (.vStruct si gs)).1 = none := by
  obtain ⟨r, hr⟩ := safeMerge_ok_of_compat ctx si fs si gs hc
  constructor
  · simp [hr, Except.isOk, Except.toBool]
  · simp [ReadJSON, hr]

/-- Field-wise description of the merge loop: when `mergeFields` succeeds,
the output keeps the destination's metadata, and at every index a
write-gated field whose right is not held keeps the destination's value,
while an ungated (or held) field receives the source's value outright when
the source field is not a recursible struct, and the recursive merge of the
two field values when it is. -/
theorem mergeFields_nth_spec (ctx : Option Principal) (fs gs out : FieldList)
    (hm : mergeFields ctx fs gs = .ok out)
    (i : Nat) (dm : FieldMeta) (dv : Val) (hnth : FieldList.nth gs i = some (dm, dv)) :
    ∃ sm sv vr, FieldList.nth fs i = some (sm, sv) ∧ FieldList.nth out i = some (dm, vr) ∧
      ((dm.writeRight == "" || HasRight ctx dm.writeRight) = false → vr = dv) ∧
      ((dm.writeRight == "" || HasRight ctx dm.writeRight) = true →
        (isRecursibleType sv = false → vr = sv) ∧
        (isRecursibleType sv = true → safeMerge ctx sv dv = .ok vr)) := by
  cases fs with
  | nil =>
    cases gs with
    | nil => cases i <;> simp [FieldList.nth] at hnth
    | cons dm' dv' drest => simp [mergeFields] at hm
  | cons sm sv srest =>
    cases gs with
    | nil => cases i <;> simp [FieldList.nth] at hnth
    | cons dm' dv' drest =>
      cases hw : (dm'.writeRight == "" || HasRight ctx dm'.writeRight) with
      | false =>
        simp only [mergeFields, hw, Bool.false_eq_true, if_false, if_true, ite_true, ite_false] at hm
        cases hmf : mergeFields ctx srest drest with
        | error e => rw [hmf] at hm; cases hm
        | ok rest =>
          rw [hmf] at hm
          simp only [Except.ok.injEq] at hm
          subst hm
          cases i with
          | zero =>
            simp only [FieldList.nth, Option.some.injEq, Prod.mk.injEq] at hnth
            obtain ⟨h1, h2⟩ := hnth
            refine ⟨sm, sv, dv', rfl, by rw [h1]; rfl, fun _ => h2, fun htrue => ?_⟩
            rw [← h1, hw] at htrue
            cases htrue
          | succ j =>
            simp only [FieldList.nth] at hnth ⊢
            exact mergeFields_nth_spec ctx srest drest rest hmf j dm dv hnth
      | true =>
        cases hr : isRecursibleType sv with
        | false =>
          simp only [mergeFields, hw, hr, Bool.false_eq_true, if_false, if_true, ite_true, ite_false] at hm
          cases hmf : mergeFields ctx srest drest with
          | error e => rw [hmf] at hm; cases hm
          | ok rest =>
            rw [hmf] at hm
            simp only [Except.ok.injEq] at hm
            subst hm
            cases i with
            | zero =>
              simp only [FieldList.nth, Option.some.injEq, Prod.mk.injEq] at hnth
              obtain ⟨h1, h2⟩ := hnth
              refine ⟨sm, sv, sv, rfl, by rw [h1]; rfl, fun hfalse => ?_,
                fun _ => ⟨fun _ => rfl, fun htrue => ?_⟩⟩
              · rw [← h1, hw] at hfalse
                cases hfalse
              · rw [hr] at htrue
                cases htrue
            | succ j =>
              simp only [FieldList.nth] at hnth ⊢
              exact mergeFields_nth_spec ctx srest drest rest hmf j dm dv hnth
        | true =>
          simp only [mergeFields, hw, hr, Bool.false_eq_true, if_false, if_true, ite_true, ite_false] at hm
          cases hsm : safeMerge ctx sv dv' with
          | error e => rw [hsm] at hm; cases hm
          | ok mv =>
            rw [hsm] at hm
            cases hmf : mergeFields ctx srest drest with
            | error e => rw [hmf] at hm; cases hm
            | ok rest =>
              rw [hmf] at hm
              simp only [Except.ok.injEq] at hm
              subst hm
              cases i with
              | zero =>
                simp only [FieldList.nth, Option.some.injEq, Prod.mk.injEq] at hnth
                obtain ⟨h1, h2⟩ := hnth
                refine ⟨sm, sv, mv, rfl, by rw [h1]; rfl, fun hfalse => ?_,
                  fun _ => ⟨fun hfalse2 => ?_, fun _ => ?_⟩⟩
                · rw [← h1, hw] at hfalse
                  cases hfalse
                · rw [hr] at hfalse2
                  cases hfalse2
                · rw [← h2]
                  exact hsm
              | succ j =>
                simp only [FieldList.nth] at hnth ⊢
                exact mergeFields_nth_spec ctx srest drest rest hmf j dm dv hnth

/-- C2 counterexample.  The claim says every field whose `writeRight` is
unset or held ends up exactly equal to the decoded body's value for that
field.  Take a record type with one untagged field `A` holding a nested
record whose field `X` carries `writeRight:"w"`, an unauthenticated
context, a decoded body with `A.X = 5` and a target with `A.X = 1`:
`ReadJSON` succeeds, yet field `A` — whose `writeRight` is unset — ends up
with `X = 1`, not the body's `X = 5`, because the merge recurses into the
nested record and the inner gate blocks the write. -/
theorem ungated_field_not_fully_overwritten :
    ReadJSON none
        (.ok (.vStruct ⟨false, false⟩
          (.cons ⟨"A", "", "", "", false⟩
            (.vStruct ⟨false, false⟩ (.cons ⟨"X", "", "", "w", false⟩ (.vInt 5) .nil)) .nil)))
        (.vStruct ⟨false, false⟩
          (.cons ⟨"A", "", "", "", false⟩
            (.vStruct ⟨false, false⟩ (.cons ⟨"X", "", "", "w", false⟩ (.vInt 1) .nil)) .nil))
      = (none, .vStruct ⟨false, false⟩
          (.cons ⟨"A", "", "", "", false⟩
            (.vStruct ⟨false, false⟩ (.cons ⟨"X", "", "", "w", false⟩ (.vInt 1) .nil)) .nil))
    ∧ (FieldMeta.writeRight ⟨"A", "", "", "", false⟩ = "")
    ∧ (Val.vStruct ⟨false, false⟩ (.cons ⟨"X", "", "", "w", false⟩ (.vInt 1) .nil))
        ≠ (.vStruct ⟨false, false⟩ (.cons ⟨"X", "", "", "w", false⟩ (.vInt 5) .nil)) :=
  ⟨rfl, rfl, by decide⟩

/-- C2 (amended).  When `ReadJSON` succeeds on a decoded struct body and a
struct target, the result keeps the target's metadata, and field by field:
a write-gated field whose right the context lacks keeps the target's prior
value; a field whose `writeRight` is unset or held receives the body's
decoded value outright when it is not a recursible plain record, and the
recursive field-by-field merge of body and target values when it is (so
nested write gates apply at every depth). -/
theorem read_json_fieldwise (ctx : Option Principal) (si si' : StructInfo)
    (fs gs : FieldList) (fin : Val)
    (h : ReadJSON ctx (.ok (.vStruct si fs)) (.vStruct si' gs) = (none, fin)) :
    ∃ hs, fin = .vStruct si' hs ∧
      ∀ i dm dv, FieldList.nth gs i = some (dm, dv) →
      ∃ sm sv vr, FieldList.nth fs i = some (sm, sv) ∧ FieldList.nth hs i = some (dm, vr) ∧
        ((dm.writeRight == "" || HasRight ctx dm.writeRight) = false → vr = dv) ∧
        ((dm.writeRight == "" || HasRight ctx dm.writeRight) = true →
          (isRecursibleType sv = false → vr = sv) ∧
          (isRecursibleType sv = true → safeMerge ctx sv dv = .ok vr)) := by
  simp only [ReadJSON] at h
  cases hm : safeMerge ctx (.vStruct si fs) (.vStruct si' gs) with
  | error e =>
    rw [hm] at h
    cases h
  | ok merged =>
    rw [hm] at h
    simp only [Prod.mk.injEq] at h
    have hfin : fin = merged := h.2.symm
    subst hfin
    unfold safeMerge at hm
    cases hmf : mergeFields ctx fs gs with
    | error e => rw [hmf] at hm; cases hm
    | ok hs =>
      rw [hmf] at hm
      simp only [Except.map, Except.ok.injEq] at hm
      refine ⟨hs, hm.symm, ?_⟩
      intro i dm dv hnth
      exact mergeFields_nth_spec ctx fs gs hs hmf i dm dv hnth

/-- A key present after a map write was present before, or is the written
key. -/
theorem hasKey_updateKV (out : KVList) (k0 : String) (v : Val) (k : String)
    (h : (updateKV out k0 v).hasKey k = true) :
    out.hasKey k = true ∨ (k0 == k) = true := by
  cases out with
  | nil =>
    simp only [updateKV, KVList.hasKey, Bool.or_eq_true] at h
    rcases h with h | h
    · exact Or.inr h
    · cases h
  | cons k1 v1 rest =>
    by_cases he : (k1 == k0) = true
    · simp only [updateKV, he, if_true, KVList.hasKey] at h
      exact Or.inl h
    · simp only [updateKV, he, if_false, Bool.false_eq_true, KVList.hasKey,
        Bool.or_eq_true] at h ⊢
      rcases h with h | h
      · exact Or.inl (Or.inl h)
      · rcases hasKey_updateKV rest k0 v k h with h2 | h2
        · exact Or.inl (Or.inr h2)
        · exact Or.inr h2

/-- Origin of serialized keys: every key in the output of the struct
serializer was already in the map passed in, or is the wire name of some
field (of the full list or of the remaining fields) that passed the read
gate. -/
theorem safeSerializeStruct_key_origin (ctx : Option Principal) :
    ∀ fuel all rem out res,
    safeSerializeStruct ctx fuel all rem out = .ok res →
    ∀ k, res.hasKey k = true →
    out.hasKey k = true ∨ anyFieldElig ctx all k = true ∨ anyFieldElig ctx rem k = true := by
  intro fuel
  induction fuel with
  | zero =>
    intro all rem out res hser k hk
    cases hser
  | succ fuel ih =>
    intro all rem out res hser k hk
    cases rem with
    | nil =>
      simp only [safeSerializeStruct, Except.ok.injEq] at hser
      subst hser
      exact Or.inl hk
    | cons m v rest =>
      cases hg : (m.readWrite == "" || HasRight ctx m.readWrite) with
      | false =>
        simp only [safeSerializeStruct, hg, Bool.false_eq_true, if_false] at hser
        rcases ih all rest out res hser k hk with h | h | h
        · exact Or.inl h
        · exact Or.inr (Or.inl h)
        · refine Or.inr (Or.inr ?_)
          simp only [anyFieldElig, Bool.or_eq_true]
          exact Or.inr h
      | true =>
        rcases hp : parseJSONTag m.jsonTag with ⟨name, opts⟩
        simp only [safeSerializeStruct, hg, if_true, hp] at hser
        cases hskip : (name == "-" || (hasJSONOption "omitempty" opts && isEmpty v)) with
        | true =>
          rw [hskip] at hser
          simp only [if_true] at hser
          rcases ih all rest out res hser k hk with h | h | h
          · exact Or.inl h
          · exact Or.inr (Or.inl h)
          · refine Or.inr (Or.inr ?_)
            simp only [anyFieldElig, Bool.or_eq_true]
            exact Or.inr h
        | false =>
          rw [hskip] at hser
          simp only [Bool.false_eq_true, if_false] at hser
          cases hanon : (name == "" && m.fname == "") with
          | true =>
            rw [hanon] at hser
            simp only [if_true] at hser
            cases hin : safeSerializeStruct ctx fuel all all out with
            | error e => rw [hin] at hser; cases hser
            | ok out2 =>
              rw [hin] at hser
              rcases ih all rest out2 res hser k hk with h | h | h
              · rcases ih all all out out2 hin k h with h2 | h2 | h2
                · exact Or.inl h2
                · exact Or.inr (Or.inl h2)
                · exact Or.inr (Or.inl h2)
              · exact Or.inr (Or.inl h)
              · refine Or.inr (Or.inr ?_)
                simp only [anyFieldElig, Bool.or_eq_true]
                exact Or.inr h
          | false =>
            rw [hanon] at hser
            simp only [Bool.false_eq_true, if_false] at hser
            cases hval : safeSerialize ctx fuel v with
            | error e => rw [hval] at hser; cases hser
            | ok w =>
              rw [hval] at hser
              rcases ih all rest (updateKV out (if name == "" then camelToSnake m.fname else name) w) res hser k hk with h | h | h
              · rcases hasKey_updateKV out _ w k h with h2 | h2
                · exact Or.inl h2
                · refine Or.inr (Or.inr ?_)
                  simp only [anyFieldElig, Bool.or_eq_true]
                  refine Or.inl ?_
                  simp only [Bool.and_eq_true]
                  refine ⟨hg, ?_⟩
                  have hw : wireName m = (if name == "" then camelToSnake m.fname else name) := by
                    simp only [wireName, hp]
                  rw [hw]
                  exact h2
              · exact Or.inr (Or.inl h)
              · refine Or.inr (Or.inr ?_)
                simp only [anyFieldElig, Bool.or_eq_true]
                exact Or.inr h

/-- Extraction of the key-origin invariant to `safeSerialize` on a struct
value: every key of the resulting wire tree is the wire name of a field
that passed the read gate. -/
theorem serialize_key_elig (ctx : Option Principal) (fuel : Nat)
    (si : StructInfo) (fs : FieldList) (res : KVList)
    (h : safeSerialize ctx fuel (.vStruct si fs) = .ok (.vMap res)) :
    ∀ k, res.hasKey k = true → anyFieldElig ctx fs k = true := by
  intro k hk
  cases fuel with
  | zero => cases h
  | succ fuel =>
    cases hsi : si.textMarshaler with
    | true =>
      simp only [safeSerialize, hsi, if_true] at h
      cases h
    | false =>
      simp only [safeSerialize, hsi, Bool.false_eq_true, if_false] at h
      cases hser : safeSerializeStruct ctx fuel fs fs .nil with
      | error e => rw [hser] at h; cases h
      | ok res2 =>
        rw [hser] at h
        simp only [Except.map, Except.ok.injEq, Val.vMap.injEq] at h
        subst h
        rcases safeSerializeStruct_key_origin ctx fuel fs fs .nil res2 hser k hk with h | h | h
        · cases h
        · exact h
        · exact h

/-- C1.  Every entry of a serialized record originates in a field that
passed the read gate: when serialization of a struct value yields a wire
tree, every key of that tree is the wire name of some field whose
`readWrite` tag is unset or whose named right the capability set holds —
so a field whose `readWrite` is set and not held contributes nothing, and
a field with no `readWrite` tag always passes the gate. -/
theorem serialize_respects_read_rights (ctx : Option Principal) (fuel : Nat)
    (si : StructInfo) (fs : FieldList) (res : KVList)
    (h : safeSerialize ctx fuel (.vStruct si fs) = .ok (.vMap res)) :
    (∀ k, res.hasKey k = true → anyFieldElig ctx fs k = true)
    ∧ (∀ m : FieldMeta, m.readWrite = "" →
        (m.readWrite == "" || HasRight ctx m.readWrite) = true) := by
  constructor
  · exact serialize_key_elig ctx fuel si fs res h
  · intro m hm
    simp [hm]

/-- With no principal, a field passing the read gate has no `readWrite` tag. -/
theorem anyFieldElig_none (fs : FieldList) (k : String)
    (h : anyFieldElig none fs k = true) : anyUngatedField fs k = true := by
  cases fs with
  | nil => cases h
  | cons m v rest =>
    have hhr : HasRight none m.readWrite = false := rfl
    simp only [anyFieldElig, hhr, Bool.or_false, Bool.or_eq_true] at h
    simp only [anyUngatedField, Bool.or_eq_true]
    rcases h with h | h
    · exact Or.inl h
    · exact Or.inr (anyFieldElig_none rest k h)

/-- C7.  A request context with no principal denies every right; in
consequence every entry serialized from a record under that context comes
from a field with no `readWrite` tag (read-gated fields are excluded), and
the merge leaves every write-gated field of the target exactly as it was. -/
theorem unauthenticated_denies_everything :
    (∀ r : String, HasRight none r = false)
    ∧ (∀ fuel si fs res k,
        safeSerialize none fuel (.vStruct si fs) = .ok (.vMap res) →
        res.hasKey k = true → anyUngatedField fs k = true)
    ∧ (∀ fs gs out i dm dv,
        mergeFields none fs gs = .ok out →
        FieldList.nth gs i = some (dm, dv) → dm.writeRight ≠ "" →
        FieldList.nth out i = some (dm, dv)) := by
  refine ⟨fun r => rfl, ?_, ?_⟩
  · intro fuel si fs res k h hk
    exact anyFieldElig_none fs k (serialize_key_elig none fuel si fs res h k hk)
  · intro fs gs out i dm dv hm hnth hw
    obtain ⟨sm, sv, vr, _, hout, hkeep, _⟩ :=
      mergeFields_nth_spec none fs gs out hm i dm dv hnth
    have hgate : (dm.writeRight == "" || HasRight none dm.writeRight) = false := by
      simp only [HasRight, Bool.or_false]
      exact beq_eq_false_iff_ne.mpr hw
    rw [hkeep hgate] at hout
    exact hout

/-! ## Witnesses -/

/-- Witness for C1 at the spec's concrete scenario: serializing
`{Name string; Secret string readWrite:"admin"}` without the "admin" right
yields only `{"name": "x"}`, and the key "name" originates in a
gate-passing field. -/
theorem serialize_respects_read_rights_witness :
    anyFieldElig none
      (.cons ⟨"Name", "", "", "", false⟩ (.vStr "x")
        (.cons ⟨"Secret", "", "admin", "", false⟩ (.vStr "y") .nil)) "name" = true :=
  (serialize_respects_read_rights none 5 ⟨false, false⟩
    (.cons ⟨"Name", "", "", "", false⟩ (.vStr "x")
      (.cons ⟨"Secret", "", "admin", "", false⟩ (.vStr "y") .nil))
    (.cons "name" (.vStr "x") .nil) rfl).1 "name" rfl

/-- Witness for C2 (amended) at the spec's concrete merge scenario: a
write-gated `Secret` field and an unauthenticated context. -/
theorem read_json_fieldwise_witness :
    ∃ hs, (Val.vStruct ⟨false, false⟩
        (.cons ⟨"Secret", "", "", "admin", false⟩ (.vStr "") .nil))
        = .vStruct ⟨false, false⟩ hs ∧
      ∀ i dm dv,
        FieldList.nth (.cons ⟨"Secret", "", "", "admin", false⟩ (.vStr "") .nil) i
          = some (dm, dv) →
        ∃ sm sv vr,
          FieldList.nth (.cons ⟨"Secret", "", "", "admin", false⟩ (.vStr "y") .nil) i
            = some (sm, sv) ∧
          FieldList.nth hs i = some (dm, vr) ∧
          ((dm.writeRight == "" || HasRight none dm.writeRight) = false → vr = dv) ∧
          ((dm.writeRight == "" || HasRight none dm.writeRight) = true →
            (isRecursibleType sv = false → vr = sv) ∧
            (isRecursibleType sv = true → safeMerge none sv dv = .ok vr)) :=
  read_json_fieldwise none ⟨false, false⟩ ⟨false, false⟩
    (.cons ⟨"Secret", "", "", "admin", false⟩ (.vStr "y") .nil)
    (.cons ⟨"Secret", "", "", "admin", false⟩ (.vStr "") .nil)
    (.vStruct ⟨false, false⟩ (.cons ⟨"Secret", "", "", "admin", false⟩ (.vStr "") .nil))
    rfl

/-- Witness for C7: no principal denies "admin"; the serialized scenario
record exposes only the ungated "name" key; a write-gated field survives
the merge untouched. -/
theorem unauthenticated_denies_everything_witness :
    HasRight none "admin" = false
    ∧ anyUngatedField
        (.cons ⟨"Name", "", "", "", false⟩ (.vStr "x")
          (.cons ⟨"Secret", "", "admin", "", false⟩ (.vStr "y") .nil)) "name" = true
    ∧ FieldList.nth (.cons ⟨"Secret", "", "", "admin", false⟩ (.vStr "") .nil) 0
        = some (⟨"Secret", "", "", "admin", false⟩, .vStr "") :=
  ⟨unauthenticated_denies_everything.1 "admin",
   unauthenticated_denies_everything.2.1 5 ⟨false, false⟩
     (.cons ⟨"Name", "", "", "", false⟩ (.vStr "x")
       (.cons ⟨"Secret", "", "admin", "", false⟩ (.vStr "y") .nil))
     (.cons "name" (.vStr "x") .nil) "name" rfl rfl,
   unauthenticated_denies_everything.2.2
     (.cons ⟨"Secret", "", "", "admin", false⟩ (.vStr "y") .nil)
     (.cons ⟨"Secret", "", "", "admin", false⟩ (.vStr "") .nil)
     (.cons ⟨"Secret", "", "", "admin", false⟩ (.vStr "") .nil)
     0 ⟨"Secret", "", "", "admin", false⟩ (.vStr "") rfl rfl (by decide)⟩

/-- Witness for C10 at the spec's merge scenario: the merge phase reports
no error. -/
theorem merge_phase_never_errors_witness :
    (safeMerge none
      (.vStruct ⟨false, false⟩ (.cons ⟨"Secret", "", "", "admin", false⟩ (.vStr "y") .nil))
      (.vStruct ⟨false, false⟩ (.cons ⟨"Secret", "", "", "admin", false⟩ (.vStr "") .nil))).isOk = true
    ∧ (ReadJSON none
        (.ok (.vStruct ⟨false, false⟩ (.cons ⟨"Secret", "", "", "admin", false⟩ (.vStr "y") .nil)))
        (.vStruct ⟨false, false⟩ (.cons ⟨"Secret", "", "", "admin", false⟩ (.vStr "") .nil))).1 = none :=
  merge_phase_never_errors none ⟨false, false⟩
    (.cons ⟨"Secret", "", "", "admin", false⟩ (.vStr "y") .nil)
    (.cons ⟨"Secret", "", "", "admin", false⟩ (.vStr "") .nil) rfl

/-! ## Round trip: list lemmas -/

theorem kvAppend_nil (out : KVList) : kvAppend out .nil = out := by
  cases out with
  | nil => rfl
  | cons k v rest => simp [kvAppend, kvAppend_nil rest]

theorem kvAppend_assoc (a b c : KVList) :
    kvAppend (kvAppend a b) c = kvAppend a (kvAppend b c) := by
  cases a with
  | nil => rfl
  | cons k v rest => simp [kvAppend, kvAppend_assoc rest b c]

theorem hasKey_kvAppend (a b : KVList) (k : String) :
    (kvAppend a b).hasKey k = (a.hasKey k || b.hasKey k) := by
  cases a with
  | nil => simp [kvAppend, KVList.hasKey]
  | cons k0 v rest =>
    simp [kvAppend, KVList.hasKey, hasKey_kvAppend rest b k, Bool.or_assoc]

theorem updateKV_fresh (out : KVList) (k : String) (v : Val)
    (h : out.hasKey k = false) :
    updateKV out k v = kvAppend out (.cons k v .nil) := by
  cases out with
  | nil => rfl
  | cons k0 v0 rest =>
    simp only [KVList.hasKey, Bool.or_eq_false_iff] at h
    simp [updateKV, kvAppend, h.1, updateKV_fresh rest k v h.2]

theorem keysFreshT_extend (rest : FieldTyList) (out : KVList) (k : String) (v : Val)
    (hf : keysFreshT rest out = true) (hw : hasWireT rest k = false) :
    keysFreshT rest (kvAppend out (.cons k v .nil)) = true := by
  cases rest with
  | nil => rfl
  | cons m t rrest =>
    simp only [keysFreshT, Bool.and_eq_true, Bool.not_eq_true'] at hf
    simp only [hasWireT, Bool.or_eq_false_iff] at hw
    simp only [keysFreshT, Bool.and_eq_true, Bool.not_eq_true']
    refine ⟨?_, keysFreshT_extend rrest out k v hf.2 hw.2⟩
    rw [hasKey_kvAppend]
    simp [KVList.hasKey, hf.1]
    intro hcontra
    rw [hcontra] at hw
    simp at hw

theorem szVal_pos (v : Val) : 1 ≤ szVal v := by
  cases v <;> simp [szVal]

theorem szElems_pos (es : ValList) : 1 ≤ szElems es := by
  cases es <;> simp [szElems] <;> omega

theorem szEntries_pos (kvs : KVList) : 1 ≤ szEntries kvs := by
  cases kvs <;> simp [szEntries] <;> omega

theorem szFields_pos (fs : FieldList) : 1 ≤ szFields fs := by
  cases fs <;> simp [szFields] <;> omega

theorem szTy_pos (t : Ty) : 1 ≤ szTy t := by
  cases t <;> simp [szTy]

theorem szTfs_pos (fs : FieldTyList) : 1 ≤ szTfs fs := by
  cases fs <;> simp [szTfs] <;> omega

theorem dropN_cons_T (i : Nat) (full : FieldTyList) (m : FieldMeta) (t : Ty)
    (rest : FieldTyList) (h : FieldTyList.dropN i full = .cons m t rest) :
    full.nth i = some (m, t) ∧ FieldTyList.dropN (i + 1) full = rest := by
  cases i with
  | zero =>
    cases full with
    | nil => cases h
    | cons m0 t0 rest0 =>
      simp only [FieldTyList.dropN, FieldTyList.cons.injEq] at h
      obtain ⟨h1, h2, h3⟩ := h
      subst h1; subst h2; subst h3
      exact ⟨rfl, rfl⟩
  | succ j =>
    cases full with
    | nil => cases h
    | cons m0 t0 rest0 =>
      simp only [FieldTyList.dropN] at h
      obtain ⟨h1, h2⟩ := dropN_cons_T j rest0 m t rest h
      exact ⟨h1, h2⟩

theorem dropN_cons_F (i : Nat) (full : FieldList) (m : FieldMeta) (v : Val)
    (rest : FieldList) (h : FieldList.dropN i full = .cons m v rest) :
    full.nth i = some (m, v) ∧ FieldList.dropN (i + 1) full = rest := by
  cases i with
  | zero =>
    cases full with
    | nil => cases h
    | cons m0 v0 rest0 =>
      simp only [FieldList.dropN, FieldList.cons.injEq] at h
      obtain ⟨h1, h2, h3⟩ := h
      subst h1; subst h2; subst h3
      exact ⟨rfl, rfl⟩
  | succ j =>
    cases full with
    | nil => cases h
    | cons m0 v0 rest0 =>
      simp only [FieldList.dropN] at h
      obtain ⟨h1, h2⟩ := dropN_cons_F j rest0 m v rest h
      exact ⟨h1, h2⟩

theorem dropN_nil_nth_T (i : Nat) (full : FieldTyList)
    (h : FieldTyList.dropN i full = .nil) :
    ∀ j, i ≤ j → full.nth j = none := by
  intro j hij
  induction i generalizing full j with
  | zero =>
    cases full with
    | nil => cases j <;> rfl
    | cons m t rest => cases h
  | succ i0 ih =>
    cases full with
    | nil => cases j <;> rfl
    | cons m t rest =>
      simp only [FieldTyList.dropN] at h
      cases j with
      | zero => omega
      | succ j0 =>
        simp only [FieldTyList.nth]
        exact ih rest h j0 (by omega)

theorem dropN_nil_nth_F (i : Nat) (full : FieldList)
    (h : FieldList.dropN i full = .nil) :
    ∀ j, i ≤ j → full.nth j = none := by
  intro j hij
  induction i generalizing full j with
  | zero =>
    cases full with
    | nil => cases j <;> rfl
    | cons m v rest => cases h
  | succ i0 ih =>
    cases full with
    | nil => cases j <;> rfl
    | cons m v rest =>
      simp only [FieldList.dropN] at h
      cases j with
      | zero => omega
      | succ j0 =>
        simp only [FieldList.nth]
        exact ih rest h j0 (by omega)

theorem zeroFields_nth (tfs : FieldTyList) (j : Nat) :
    (zeroFields tfs).nth j
      = Option.map (fun p => (p.1, zeroVal p.2)) (tfs.nth j) := by
  cases tfs with
  | nil => cases j <;> rfl
  | cons m t rest =>
    cases j with
    | zero => rfl
    | succ j0 =>
      simp only [zeroFields, FieldList.nth, FieldTyList.nth]
      exact zeroFields_nth rest j0

theorem nth_setVal_self (cur : FieldList) (i : Nat) (m : FieldMeta) (v0 v : Val)
    (h : cur.nth i = some (m, v0)) : (cur.setVal i v).nth i = some (m, v) := by
  cases cur with
  | nil => cases i <;> cases h
  | cons m0 w0 rest =>
    cases i with
    | zero =>
      simp only [FieldList.nth, Option.some.injEq, Prod.mk.injEq] at h
      simp [FieldList.setVal, FieldList.nth, h.1]
    | succ j =>
      simp only [FieldList.nth] at h
      simp only [FieldList.setVal, FieldList.nth]
      exact nth_setVal_self rest j m v0 v h

theorem nth_setVal_ne (cur : FieldList) (i j : Nat) (v : Val) (hne : j ≠ i) :
    (cur.setVal i v).nth j = cur.nth j := by
  cases cur with
  | nil => cases i <;> cases j <;> rfl
  | cons m0 w0 rest =>
    cases i with
    | zero =>
      cases j with
      | zero => omega
      | succ j0 => rfl
    | succ i0 =>
      cases j with
      | zero => rfl
      | succ j0 =>
        simp only [FieldList.setVal, FieldList.nth]
        exact nth_setVal_ne rest i0 j0 v (by omega)

theorem FieldList.ext_nth (a b : FieldList) (h : ∀ j, a.nth j = b.nth j) : a = b := by
  cases a with
  | nil =>
    cases b with
    | nil => rfl
    | cons m v rest => cases h 0
  | cons m v rest =>
    cases b with
    | nil => cases h 0
    | cons m' v' rest' =>
      have h0 := h 0
      simp only [FieldList.nth, Option.some.injEq, Prod.mk.injEq] at h0
      rw [h0.1, h0.2, FieldList.ext_nth rest rest' (fun j => h (j + 1))]

theorem szTy_nth_le (full : FieldTyList) (i : Nat) (m : FieldMeta) (t : Ty)
    (h : full.nth i = some (m, t)) : szTy t ≤ szTfs full := by
  cases full with
  | nil => cases i <;> cases h
  | cons m0 t0 rest =>
    cases i with
    | zero =>
      simp only [FieldTyList.nth, Option.some.injEq, Prod.mk.injEq] at h
      simp [szTfs, h.2.symm]
      omega
    | succ j =>
      simp only [FieldTyList.nth] at h
      have := szTy_nth_le rest j m t h
      simp [szTfs]
      omega

/-! ## Round trip: name resolution and raw decoding -/

theorem namesResolveFrom_nth (all : FieldTyList) :
    ∀ (sfx : FieldTyList) (i0 : Nat), namesResolveFrom all sfx i0 = true →
    ∀ j m t, sfx.nth j = some (m, t) →
    decodeMatch all (wireName m) = some (i0 + j) := by
  intro sfx
  cases sfx with
  | nil =>
    intro i0 _ j m t hj
    cases j <;> cases hj
  | cons m0 t0 rest =>
    intro i0 h j m t hj
    simp only [namesResolveFrom, Bool.and_eq_true, beq_iff_eq] at h
    cases j with
    | zero =>
      simp only [FieldTyList.nth, Option.some.injEq, Prod.mk.injEq] at hj
      rw [← hj.1]
      simpa using h.1
    | succ j0 =>
      simp only [FieldTyList.nth] at hj
      have := namesResolveFrom_nth all rest (i0 + 1) h.2 j0 m t hj
      rw [this]
      congr 1
      omega

theorem namesResolve_nth (full : FieldTyList) (h : namesResolve full = true)
    (j : Nat) (m : FieldMeta) (t : Ty) (hj : full.nth j = some (m, t)) :
    decodeMatch full (wireName m) = some j := by
  have := namesResolveFrom_nth full full 0 h j m t hj
  simpa using this

/-- An empty value in the round-trip domain is exactly the zero value of
its type. -/
theorem goodVal_empty_zero (ctx : Option Principal) (t : Ty) (v : Val)
    (hg : goodVal ctx t v = true) (he : isEmpty v = true) : v = zeroVal t := by
  cases v with
  | vInt n =>
    cases t <;> simp [goodVal] at hg
    simp only [isEmpty, beq_iff_eq] at he
    simp [zeroVal, he]
  | vUInt n =>
    cases t <;> simp [goodVal] at hg
    simp only [isEmpty, beq_iff_eq] at he
    simp [zeroVal, he]
  | vFloat q =>
    cases t <;> simp [goodVal] at hg
    simp only [isEmpty, beq_iff_eq] at he
    simp [zeroVal, he]
  | vStr s =>
    cases t <;> simp [goodVal] at hg
    simp only [isEmpty, beq_iff_eq] at he
    have := (string_length_zero_iff s).mp he
    simp [zeroVal, this]
  | vBool b =>
    cases t <;> simp [goodVal] at hg
    simp only [isEmpty, Bool.not_eq_true'] at he
    simp [zeroVal, he]
  | vPtrNil => cases t <;> simp [goodVal] at hg
  | vPtr v0 => simp [isEmpty] at he
  | vSlice es =>
    cases t <;> simp [goodVal] at hg
    simp only [isEmpty, beq_iff_eq] at he
    cases es with
    | nil => rfl
    | cons v0 rest => simp [ValList.length] at he
  | vMap kvs =>
    cases t <;> simp [goodVal] at hg
    simp only [isEmpty, beq_iff_eq] at he
    cases kvs with
    | nil => rfl
    | cons k v0 rest => simp [KVList.length] at he
  | vStruct si fs => simp [isEmpty] at he

/-- On a wire value that is not a nil pointer, decoding at a pointer type
allocates and decodes the pointee. -/
theorem decodeVal_ptr (dfuel : Nat) (t : Ty) (w : Val) (hne : w ≠ .vPtrNil) :
    decodeVal (dfuel + 1) (.tPtr t) w = Except.map Val.vPtr (decodeVal dfuel t w) := by
  cases w with
  | vPtrNil => exact absurd rfl hne
  | vInt n => rfl
  | vUInt n => rfl
  | vFloat q => rfl
  | vStr s => rfl
  | vBool b => rfl
  | vPtr v => rfl
  | vSlice es => rfl
  | vMap kvs => rfl
  | vStruct si fs => rfl

mutual
/-- The modelled decoder reproduces raw round-trippable values exactly. -/
theorem rawDecodeVal (t : Ty) (v : Val) (h : rawRoundTrips t v = true) :
    ∀ dfuel, szTy t + szVal v ≤ dfuel → decodeVal dfuel t v = .ok v := by
  intro dfuel hle
  cases dfuel with
  | zero =>
    have := szTy_pos t
    omega
  | succ d =>
    cases t with
    | tInt => cases v <;> simp_all [rawRoundTrips, decodeVal]
    | tUInt => cases v <;> simp_all [rawRoundTrips, decodeVal]
    | tFloat => cases v <;> simp_all [rawRoundTrips, decodeVal]
    | tStr => cases v <;> simp_all [rawRoundTrips, decodeVal]
    | tBool => cases v <;> simp_all [rawRoundTrips, decodeVal]
    | tPtr t0 => cases v <;> simp_all [rawRoundTrips]
    | tSlice t0 =>
      cases v with
      | vSlice es =>
        have hrec := rawDecodeElems t0 es h d (by simp [szTy, szVal] at hle ⊢; omega)
        simp [decodeVal, hrec, Except.map]
      | vInt n => simp_all [rawRoundTrips]
      | vUInt n => simp_all [rawRoundTrips]
      | vFloat q => simp_all [rawRoundTrips]
      | vStr s => simp_all [rawRoundTrips]
      | vBool b => simp_all [rawRoundTrips]
      | vPtrNil => simp_all [rawRoundTrips]
      | vPtr v0 => simp_all [rawRoundTrips]
      | vMap kvs => simp_all [rawRoundTrips]
      | vStruct si fs => simp_all [rawRoundTrips]
    | tMap t0 =>
      cases v with
      | vMap kvs =>
        have hrec := rawDecodeEntries t0 kvs h d (by simp [szTy, szVal] at hle ⊢; omega)
        simp [decodeVal, hrec, Except.map]
      | vInt n => simp_all [rawRoundTrips]
      | vUInt n => simp_all [rawRoundTrips]
      | vFloat q => simp_all [rawRoundTrips]
      | vStr s => simp_all [rawRoundTrips]
      | vBool b => simp_all [rawRoundTrips]
      | vPtrNil => simp_all [rawRoundTrips]
      | vPtr v0 => simp_all [rawRoundTrips]
      | vSlice es => simp_all [rawRoundTrips]
      | vStruct si fs => simp_all [rawRoundTrips]
    | tStruct si tfs => cases v <;> simp_all [rawRoundTrips]

/-- Componentwise raw decoding of slice elements. -/
theorem rawDecodeElems (t : Ty) (es : ValList) (h : rawElemsRT t es = true) :
    ∀ dfuel, szTy t + szElems es ≤ dfuel → decodeElems dfuel t es = .ok es := by
  intro dfuel hle
  cases dfuel with
  | zero =>
    have := szTy_pos t
    omega
  | succ d =>
    cases es with
    | nil => rfl
    | cons v rest =>
      simp only [rawElemsRT, Bool.and_eq_true] at h
      have h1 := rawDecodeVal t v h.1 d (by simp [szElems] at hle ⊢; omega)
      have h2 := rawDecodeElems t rest h.2 d (by
        simp [szElems] at hle ⊢
        have := szVal_pos v
        omega)
      simp [decodeElems, h1, h2, Except.map]

/-- Componentwise raw decoding of map entries. -/
theorem rawDecodeEntries (t : Ty) (kvs : KVList) (h : rawEntriesRT t kvs = true) :
    ∀ dfuel, szTy t + szEntries kvs ≤ dfuel → decodeEntries dfuel t kvs = .ok kvs := by
  intro dfuel hle
  cases dfuel with
  | zero =>
    have := szTy_pos t
    omega
  | succ d =>
    cases kvs with
    | nil => rfl
    | cons k v rest =>
      simp only [rawEntriesRT, Bool.and_eq_true] at h
      have h1 := rawDecodeVal t v h.1 d (by simp [szEntries] at hle ⊢; omega)
      have h2 := rawDecodeEntries t rest h.2 d (by
        simp [szEntries] at hle ⊢
        have := szVal_pos v
        omega)
      simp [decodeEntries, h1, h2, Except.map]
end

theorem keysFreshT_nil (tfs : FieldTyList) : keysFreshT tfs .nil = true := by
  cases tfs with
  | nil => rfl
  | cons m t rest => simp [keysFreshT, KVList.hasKey, keysFreshT_nil rest]

/-- Folding the emitted entries of a struct's fields over any current field
values that are still zero from position `i` on recovers the original field
values from position `i` on, and touches nothing before `i`: each emitted
key resolves to its own field and its wire value decodes to the original
field value, while skipped fields were zero-valued to begin with. -/
theorem decodeObj_emits (ctx : Option Principal) (fullT : FieldTyList) (fullF : FieldList)
    (hnr : ∀ j m t, fullT.nth j = some (m, t) → decodeMatch fullT (wireName m) = some j) :
    ∀ es trest frest, Emits ctx trest frest es →
    ∀ i cur, FieldTyList.dropN i fullT = trest →
    FieldList.dropN i fullF = frest →
    (∀ j, i ≤ j → cur.nth j = (zeroFields fullT).nth j) →
    ∀ dfuel, 1 + szTfs fullT + szEntries es ≤ dfuel →
    ∃ cur', decodeObj dfuel fullT es cur = .ok cur' ∧
      (∀ j, j < i → cur'.nth j = cur.nth j) ∧
      (∀ j, i ≤ j → cur'.nth j = fullF.nth j) := by
  intro es trest frest hem
  induction hem with
  | nil =>
    intro i cur hdT hdF hcur dfuel hd
    cases dfuel with
    | zero => omega
    | succ d =>
      refine ⟨cur, rfl, fun j _ => rfl, ?_⟩
      intro j hij
      rw [hcur j hij, zeroFields_nth, dropN_nil_nth_T i fullT hdT j hij,
        dropN_nil_nth_F i fullF hdF j hij]
      rfl
  | skip m t v trest0 frest0 es0 hz hem0 ih =>
    intro i cur hdT hdF hcur dfuel hd
    obtain ⟨hTnth, hTdrop⟩ := dropN_cons_T i fullT m t trest0 hdT
    obtain ⟨hFnth, hFdrop⟩ := dropN_cons_F i fullF m v frest0 hdF
    obtain ⟨cur', heq, hpres, htail⟩ :=
      ih (i + 1) cur hTdrop hFdrop (fun j hj => hcur j (by omega)) dfuel hd
    refine ⟨cur', heq, fun j hj => hpres j (by omega), ?_⟩
    intro j hij
    rcases Nat.eq_or_lt_of_le hij with hji | hji
    · rw [← hji, hpres i (by omega), hcur i (le_refl i), zeroFields_nth, hTnth, hFnth, hz]
      rfl
    · exact htail j hji
  | emit m t v w trest0 frest0 es0 hdec hsz hem0 ih =>
    intro i cur hdT hdF hcur dfuel hd
    obtain ⟨hTnth, hTdrop⟩ := dropN_cons_T i fullT m t trest0 hdT
    obtain ⟨hFnth, hFdrop⟩ := dropN_cons_F i fullF m v frest0 hdF
    cases dfuel with
    | zero => omega
    | succ d =>
      have hmatch : decodeMatch fullT (wireName m) = some i := hnr i m t hTnth
      have hdw : decodeVal d t w = .ok v := by
        apply hdec
        have h1 := szTy_nth_le fullT i m t hTnth
        simp only [szEntries] at hd
        omega
      have hcuri : cur.nth i = some (m, zeroVal t) := by
        rw [hcur i (le_refl i), zeroFields_nth, hTnth]
        rfl
      have hcurset : ∀ j, i + 1 ≤ j → (cur.setVal i v).nth j = (zeroFields fullT).nth j := by
        intro j hj
        rw [nth_setVal_ne cur i j v (by omega)]
        exact hcur j (by omega)
      obtain ⟨cur', heq, hpres, htail⟩ :=
        ih (i + 1) (cur.setVal i v) hTdrop hFdrop hcurset d (by
          simp only [szEntries] at hd
          have := szVal_pos w
          omega)
      refine ⟨cur', ?_, ?_, ?_⟩
      · simp only [decodeObj, hmatch, hTnth, hdw]
        exact heq
      · intro j hj
        rw [hpres j (by omega), nth_setVal_ne cur i j v (by omega)]
      · intro j hij
        rcases Nat.eq_or_lt_of_le hij with hji | hji
        · rw [← hji, hpres i (by omega), nth_setVal_self cur i m (zeroVal t) v hcuri, hFnth]
        · exact htail j hji

mutual
/-- On the round-trip domain, serialization succeeds with any fuel of at
least the value's size, the wire tree is no larger than the value, is
never a bare nil pointer, and the modelled decoder maps it back to the
original value. -/
theorem serializeRT (ctx : Option Principal) (ty : Ty) (v : Val)
    (hg : goodVal ctx ty v = true) :
    ∃ w, (∀ fuel, szVal v ≤ fuel → safeSerialize ctx fuel v = .ok w)
      ∧ szVal w ≤ szVal v
      ∧ w ≠ .vPtrNil
      ∧ (∀ dfuel, szTy ty + szVal w ≤ dfuel → decodeVal dfuel ty w = .ok v) := by
  cases ty with
  | tInt =>
    cases v with
    | vInt n =>
      refine ⟨.vInt n, ?_, le_refl _, by simp, ?_⟩
      · intro fuel hf
        cases fuel with
        | zero => simp [szVal] at hf
        | succ f => rfl
      · intro dfuel hd
        cases dfuel with
        | zero => simp [szTy, szVal] at hd
        | succ d => rfl
    | vUInt n => simp [goodVal] at hg
    | vFloat q => simp [goodVal] at hg
    | vStr s => simp [goodVal] at hg
    | vBool b => simp [goodVal] at hg
    | vPtrNil => simp [goodVal] at hg
    | vPtr v0 => simp [goodVal] at hg
    | vSlice es => simp [goodVal] at hg
    | vMap kvs => simp [goodVal] at hg
    | vStruct si fs => simp [goodVal] at hg
  | tUInt =>
    cases v with
    | vUInt n =>
      refine ⟨.vUInt n, ?_, le_refl _, by simp, ?_⟩
      · intro fuel hf
        cases fuel with
        | zero => simp [szVal] at hf
        | succ f => rfl
      · intro dfuel hd
        cases dfuel with
        | zero => simp [szTy, szVal] at hd
        | succ d => rfl
    | vInt n => simp [goodVal] at hg
    | vFloat q => simp [goodVal] at hg
    | vStr s => simp [goodVal] at hg
    | vBool b => simp [goodVal] at hg
    | vPtrNil => simp [goodVal] at hg
    | vPtr v0 => simp [goodVal] at hg
    | vSlice es => simp [goodVal] at hg
    | vMap kvs => simp [goodVal] at hg
    | vStruct si fs => simp [goodVal] at hg
  | tFloat =>
    cases v with
    | vFloat q =>
      refine ⟨.vFloat q, ?_, le_refl _, by simp, ?_⟩
      · intro fuel hf
        cases fuel with
        | zero => simp [szVal] at hf
        | succ f => rfl
      · intro dfuel hd
        cases dfuel with
        | zero => simp [szTy, szVal] at hd
        | succ d => rfl
    | vInt n => simp [goodVal] at hg
    | vUInt n => simp [goodVal] at hg
    | vStr s => simp [goodVal] at hg
    | vBool b => simp [goodVal] at hg
    | vPtrNil => simp [goodVal] at hg
    | vPtr v0 => simp [goodVal] at hg
    | vSlice es => simp [goodVal] at hg
    | vMap kvs => simp [goodVal] at hg
    | vStruct si fs => simp [goodVal] at hg
  | tStr =>
    cases v with
    | vStr s =>
      refine ⟨.vStr s, ?_, le_refl _, by simp, ?_⟩
      · intro fuel hf
        cases fuel with
        | zero => simp [szVal] at hf
        | succ f => rfl
      · intro dfuel hd
        cases dfuel with
        | zero => simp [szTy, szVal] at hd
        | succ d => rfl
    | vInt n => simp [goodVal] at hg
    | vUInt n => simp [goodVal] at hg
    | vFloat q => simp [goodVal] at hg
    | vBool b => simp [goodVal] at hg
    | vPtrNil => simp [goodVal] at hg
    | vPtr v0 => simp [goodVal] at hg
    | vSlice es => simp [goodVal] at hg
    | vMap kvs => simp [goodVal] at hg
    | vStruct si fs => simp [goodVal] at hg
  | tBool =>
    cases v with
    | vBool b =>
      refine ⟨.vBool b, ?_, le_refl _, by simp, ?_⟩
      · intro fuel hf
        cases fuel with
        | zero => simp [szVal] at hf
        | succ f => rfl
      · intro dfuel hd
        cases dfuel with
        | zero => simp [szTy, szVal] at hd
        | succ d => rfl
    | vInt n => simp [goodVal] at hg
    | vUInt n => simp [goodVal] at hg
    | vFloat q => simp [goodVal] at hg
    | vStr s => simp [goodVal] at hg
    | vPtrNil => simp [goodVal] at hg
    | vPtr v0 => simp [goodVal] at hg
    | vSlice es => simp [goodVal] at hg
    | vMap kvs => simp [goodVal] at hg
    | vStruct si fs => simp [goodVal] at hg
  | tPtr t0 =>
    cases v with
    | vPtr v0 =>
      have hg0 : goodVal ctx t0 v0 = true := by simpa [goodVal] using hg
      obtain ⟨w, hser, hsz, hnn, hdec⟩ := serializeRT ctx t0 v0 hg0
      refine ⟨w, ?_, ?_, hnn, ?_⟩
      · intro fuel hf
        cases fuel with
        | zero =>
          simp only [szVal] at hf
          omega
        | succ f =>
          have hred : safeSerialize ctx (f + 1) (.vPtr v0) = safeSerialize ctx f v0 := rfl
          rw [hred]
          apply hser
          simp only [szVal] at hf
          omega
      · simp only [szVal]
        omega
      · intro dfuel hd
        cases dfuel with
        | zero =>
          have := szVal_pos w
          simp only [szTy] at hd
          omega
        | succ d =>
          rw [decodeVal_ptr d t0 w hnn, hdec d (by simp only [szTy] at hd; omega)]
          rfl
    | vInt n => simp [goodVal] at hg
    | vUInt n => simp [goodVal] at hg
    | vFloat q => simp [goodVal] at hg
    | vStr s => simp [goodVal] at hg
    | vBool b => simp [goodVal] at hg
    | vPtrNil => simp [goodVal] at hg
    | vSlice es => simp [goodVal] at hg
    | vMap kvs => simp [goodVal] at hg
    | vStruct si fs => simp [goodVal] at hg
  | tSlice t0 =>
    cases v with
    | vSlice es =>
      have hg0 : goodElems ctx t0 es = true := by simpa [goodVal] using hg
      obtain ⟨ws, hser, hsz, hdec⟩ := serializeElemsRT ctx t0 es hg0
      refine ⟨.vSlice ws, ?_, ?_, by simp, ?_⟩
      · intro fuel hf
        cases fuel with
        | zero =>
          simp only [szVal] at hf
          omega
        | succ f =>
          have hred : safeSerialize ctx (f + 1) (.vSlice es)
              = Except.map Val.vSlice (safeSerializeSlice ctx f es) := rfl
          rw [hred, hser f (by simp only [szVal] at hf; omega)]
          rfl
      · simp only [szVal]
        omega
      · intro dfuel hd
        cases dfuel with
        | zero =>
          have := szElems_pos ws
          simp only [szTy] at hd
          omega
        | succ d =>
          have hred : decodeVal (d + 1) (.tSlice t0) (.vSlice ws)
              = Except.map Val.vSlice (decodeElems d t0 ws) := rfl
          rw [hred, hdec d (by simp only [szTy, szVal] at hd; omega)]
          rfl
    | vInt n => simp [goodVal] at hg
    | vUInt n => simp [goodVal] at hg
    | vFloat q => simp [goodVal] at hg
    | vStr s => simp [goodVal] at hg
    | vBool b => simp [goodVal] at hg
    | vPtrNil => simp [goodVal] at hg
    | vPtr v0 => simp [goodVal] at hg
    | vMap kvs => simp [goodVal] at hg
    | vStruct si fs => simp [goodVal] at hg
  | tMap t0 =>
    cases v with
    | vMap kvs =>
      have hraw : rawEntriesRT t0 kvs = true := by simpa [goodVal] using hg
      refine ⟨.vMap kvs, ?_, le_refl _, by simp, ?_⟩
      · intro fuel hf
        cases fuel with
        | zero =>
          simp only [szVal] at hf
          omega
        | succ f => rfl
      · intro dfuel hd
        cases dfuel with
        | zero =>
          have := szEntries_pos kvs
          simp only [szTy] at hd
          omega
        | succ d =>
          have hred : decodeVal (d + 1) (.tMap t0) (.vMap kvs)
              = Except.map Val.vMap (decodeEntries d t0 kvs) := rfl
          rw [hred, rawDecodeEntries t0 kvs hraw d (by simp only [szTy, szVal] at hd; omega)]
          rfl
    | vInt n => simp [goodVal] at hg
    | vUInt n => simp [goodVal] at hg
    | vFloat q => simp [goodVal] at hg
    | vStr s => simp [goodVal] at hg
    | vBool b => simp [goodVal] at hg
    | vPtrNil => simp [goodVal] at hg
    | vPtr v0 => simp [goodVal] at hg
    | vSlice es => simp [goodVal] at hg
    | vStruct si fs => simp [goodVal] at hg
  | tStruct si tfs =>
    cases v with
    | vStruct si' fs =>
      have hg' := hg
      simp only [goodVal, Bool.and_eq_true, beq_iff_eq, Bool.not_eq_true'] at hg'
      obtain ⟨⟨⟨⟨⟨hsi, htm⟩, hum⟩, hnr⟩, hkd⟩, hgf⟩ := hg'
      obtain ⟨es, hser, hsz, hem⟩ := serializeFieldsRT ctx tfs fs hgf hkd
      refine ⟨.vMap es, ?_, ?_, by simp, ?_⟩
      · intro fuel hf
        cases fuel with
        | zero =>
          simp only [szVal] at hf
          omega
        | succ f =>
          have htm' : si'.textMarshaler = false := by rw [← hsi]; exact htm
          have hred : safeSerialize ctx (f + 1) (.vStruct si' fs)
              = Except.map Val.vMap (safeSerializeStruct ctx f fs fs .nil) := by
            simp [safeSerialize, htm']
          rw [hred, hser fs .nil f (by simp only [szVal] at hf; omega) (keysFreshT_nil tfs)]
          rfl
      · simp only [szVal]
        omega
      · intro dfuel hd
        cases dfuel with
        | zero =>
          have := szEntries_pos es
          simp only [szTy] at hd
          omega
        | succ d =>
          have hnr' : ∀ j m t, tfs.nth j = some (m, t) →
              decodeMatch tfs (wireName m) = some j := fun j m t hj =>
            namesResolve_nth tfs hnr j m t hj
          obtain ⟨cur', heq, _, htail⟩ := decodeObj_emits ctx tfs fs hnr' es tfs fs hem
            0 (zeroFields tfs) rfl rfl (fun _ _ => rfl) d
            (by simp only [szTy, szVal] at hd; omega)
          have hcur : cur' = fs := FieldList.ext_nth cur' fs (fun j => htail j (Nat.zero_le j))
          have hred : decodeVal (d + 1) (.tStruct si tfs) (.vMap es)
              = Except.map (Val.vStruct si) (decodeObj d tfs es (zeroFields tfs)) := by
            simp [decodeVal, hum]
          rw [hred, heq, hcur, hsi]
          rfl
    | vInt n => simp [goodVal] at hg
    | vUInt n => simp [goodVal] at hg
    | vFloat q => simp [goodVal] at hg
    | vStr s => simp [goodVal] at hg
    | vBool b => simp [goodVal] at hg
    | vPtrNil => simp [goodVal] at hg
    | vPtr v0 => simp [goodVal] at hg
    | vSlice es => simp [goodVal] at hg
    | vMap kvs => simp [goodVal] at hg

/-- Slice elements: serialization and decoding, elementwise. -/
theorem serializeElemsRT (ctx : Option Principal) (t : Ty) (es : ValList)
    (hg : goodElems ctx t es = true) :
    ∃ ws, (∀ fuel, szElems es ≤ fuel → safeSerializeSlice ctx fuel es = .ok ws)
      ∧ szElems ws ≤ szElems es
      ∧ (∀ dfuel, szTy t + szElems ws ≤ dfuel → decodeElems dfuel t ws = .ok es) := by
  cases es with
  | nil =>
    refine ⟨.nil, ?_, le_refl _, ?_⟩
    · intro fuel hf
      cases fuel with
      | zero => simp [szElems] at hf
      | succ f => rfl
    · intro dfuel hd
      cases dfuel with
      | zero =>
        have := szTy_pos t
        omega
      | succ d => rfl
  | cons v rest =>
    have hg' := hg
    simp only [goodElems, Bool.and_eq_true] at hg'
    obtain ⟨w, hserv, hszw, _, hdecw⟩ := serializeRT ctx t v hg'.1
    obtain ⟨wsrest, hserrest, hszrest, hdecrest⟩ := serializeElemsRT ctx t rest hg'.2
    refine ⟨.cons w wsrest, ?_, ?_, ?_⟩
    · intro fuel hf
      cases fuel with
      | zero =>
        simp only [szElems] at hf
        omega
      | succ f =>
        have hle := szElems_pos rest
        have h1 := hserv f (by simp only [szElems] at hf; omega)
        have h2 := hserrest f (by
          simp only [szElems] at hf
          have := szVal_pos v
          omega)
        simp only [safeSerializeSlice, h1, h2]
        rfl
    · simp only [szElems]
      omega
    · intro dfuel hd
      cases dfuel with
      | zero =>
        have := szTy_pos t
        omega
      | succ d =>
        have h1 := hdecw d (by
          simp only [szElems] at hd
          have := szElems_pos wsrest
          omega)
        have h2 := hdecrest d (by
          simp only [szElems] at hd
          have := szVal_pos w
          omega)
        simp only [decodeElems, h1, h2]
        rfl

/-- Struct fields: the serializer's field loop appends exactly the emitted
entries to whatever map it is given, provided no field's wire name
collides with the map or with a later field. -/
theorem serializeFieldsRT (ctx : Option Principal) (tfs : FieldTyList) (fs : FieldList)
    (hg : goodFields ctx tfs fs = true) (hkd : keysDistinctT tfs = true) :
    ∃ es, (∀ all out fuel, szFields fs ≤ fuel → keysFreshT tfs out = true →
            safeSerializeStruct ctx fuel all fs out = .ok (kvAppend out es))
      ∧ szEntries es ≤ szFields fs
      ∧ Emits ctx tfs fs es := by
  cases tfs with
  | nil =>
    cases fs with
    | nil =>
      refine ⟨.nil, ?_, le_refl _, Emits.nil⟩
      intro all out fuel hf _
      cases fuel with
      | zero => simp [szFields] at hf
      | succ f =>
        rw [kvAppend_nil]
        rfl
    | cons mv v vrest => simp [goodFields] at hg
  | cons mt t trest =>
    cases fs with
    | nil => simp [goodFields] at hg
    | cons mv v vrest =>
      have hg' := hg
      simp only [goodFields, Bool.and_eq_true, beq_iff_eq] at hg'
      obtain ⟨⟨⟨hmm, hgm⟩, hgv⟩, hgrest⟩ := hg'
      subst hmm
      have hkd' := hkd
      simp only [keysDistinctT, Bool.and_eq_true, Bool.not_eq_true'] at hkd'
      obtain ⟨hwire, hkdrest⟩ := hkd'
      obtain ⟨es', hser', hsz', hem'⟩ := serializeFieldsRT ctx trest vrest hgrest hkdrest
      have hgm' := hgm
      simp only [goodMeta, Bool.and_eq_true, Bool.not_eq_true', bne_iff_ne, ne_eq] at hgm'
      obtain ⟨⟨⟨⟨hrg, hwg⟩, hdash⟩, hanon⟩, _⟩ := hgm'
      rcases hp : parseJSONTag mt.jsonTag with ⟨name, opts⟩
      have hdash' : (name == "-") = false := by
        rw [hp] at hdash
        simp only [beq_eq_false_iff_ne, ne_eq]
        exact hdash
      have hanon' : (name == "" && mt.fname == "") = false := by
        rw [hp] at hanon
        exact hanon
      have hwname : wireName mt = (if name == "" then camelToSnake mt.fname else name) := by
        simp only [wireName, hp]
      cases hskip : (hasJSONOption "omitempty" opts && isEmpty v) with
      | true =>
        have hz : v = zeroVal t :=
          goodVal_empty_zero ctx t v hgv (Bool.and_eq_true .. ▸ hskip).2
        refine ⟨es', ?_, ?_, Emits.skip mt t v trest vrest es' hz hem'⟩
        · intro all out fuel hf hfr
          cases fuel with
          | zero =>
            simp only [szFields] at hf
            omega
          | succ f =>
            have hfr' : keysFreshT trest out = true := by
              simp only [keysFreshT, Bool.and_eq_true] at hfr
              exact hfr.2
            have hred : safeSerializeStruct ctx (f + 1) all (.cons mt v vrest) out
                = safeSerializeStruct ctx f all vrest out := by
              simp [safeSerializeStruct, hrg, hp, hdash', hskip]
            rw [hred]
            apply hser' all out f ?_ hfr'
            simp only [szFields] at hf
            have := szVal_pos v
            omega
        · simp only [szFields]
          have := szVal_pos v
          omega
      | false =>
        obtain ⟨w, hserv, hszw, _, hdecw⟩ := serializeRT ctx t v hgv
        refine ⟨.cons (wireName mt) w es',
          ?_, ?_, Emits.emit mt t v w trest vrest es' hdecw hszw hem'⟩
        · intro all out fuel hf hfr
          cases fuel with
          | zero =>
            simp only [szFields] at hf
            omega
          | succ f =>
            have hfrout : out.hasKey (wireName mt) = false := by
              simp only [keysFreshT, Bool.and_eq_true, Bool.not_eq_true'] at hfr
              exact hfr.1
            have hfr' : keysFreshT trest out = true := by
              simp only [keysFreshT, Bool.and_eq_true] at hfr
              exact hfr.2
            have hfrext : keysFreshT trest (kvAppend out (.cons (wireName mt) w .nil)) = true :=
              keysFreshT_extend trest out (wireName mt) w hfr' hwire
            have hv := hserv f (by
              simp only [szFields] at hf
              have := szFields_pos vrest
              omega)
            have hred : safeSerializeStruct ctx (f + 1) all (.cons mt v vrest) out
                = safeSerializeStruct ctx f all vrest
                    (updateKV out (if name == "" then camelToSnake mt.fname else name) w) := by
              simp [safeSerializeStruct, hrg, hp, hdash', hskip, hanon', hv]
            rw [hred, ← hwname, updateKV_fresh out (wireName mt) w hfrout]
            rw [hser' all (kvAppend out (.cons (wireName mt) w .nil)) f (by
              simp only [szFields] at hf
              have := szVal_pos v
              omega) hfrext]
            rw [kvAppend_assoc]
            rfl
        · simp only [szFields, szEntries]
          omega
end

mutual
/-- With every write right held (as `goodVal` demands), merging a struct
value onto the zero value of its type reproduces the value. -/
theorem mergeFull_struct (ctx : Option Principal) (si : StructInfo) (tfs : FieldTyList)
    (si' : StructInfo) (fs : FieldList)
    (hg : goodVal ctx (.tStruct si tfs) (.vStruct si' fs) = true) :
    safeMerge ctx (.vStruct si' fs) (zeroVal (.tStruct si tfs)) = .ok (.vStruct si' fs) := by
  have hg' := hg
  simp only [goodVal, Bool.and_eq_true, beq_iff_eq] at hg'
  obtain ⟨⟨⟨⟨⟨hsi, _⟩, _⟩, _⟩, _⟩, hgf⟩ := hg'
  have hm := mergeFull_fields ctx tfs fs hgf
  have hz : zeroVal (.tStruct si tfs) = .vStruct si (zeroFields tfs) := rfl
  rw [hz]
  show Except.map (Val.vStruct si) (mergeFields ctx fs (zeroFields tfs)) = _
  rw [hm, hsi]
  rfl

/-- With every write right held, the merge loop onto zero fields returns
the source fields unchanged. -/
theorem mergeFull_fields (ctx : Option Principal) (tfs : FieldTyList) (fs : FieldList)
    (hg : goodFields ctx tfs fs = true) :
    mergeFields ctx fs (zeroFields tfs) = .ok fs := by
  cases tfs with
  | nil =>
    cases fs with
    | nil => rfl
    | cons mv v vrest => simp [goodFields] at hg
  | cons mt t trest =>
    cases fs with
    | nil => simp [goodFields] at hg
    | cons mv v vrest =>
      have hg' := hg
      simp only [goodFields, Bool.and_eq_true, beq_iff_eq] at hg'
      obtain ⟨⟨⟨hmm, hgm⟩, hgv⟩, hgrest⟩ := hg'
      subst hmm
      have hwg : (mt.writeRight == "" || HasRight ctx mt.writeRight) = true := by
        simp only [goodMeta, Bool.and_eq_true] at hgm
        exact hgm.1.1.1.2
      have hrest := mergeFull_fields ctx trest vrest hgrest
      cases hr : isRecursibleType v with
      | false =>
        show mergeFields ctx (.cons mt v vrest) (.cons mt (zeroVal t) (zeroFields trest)) = _
        simp [mergeFields, hwg, hr, hrest]
      | true =>
        cases v with
        | vStruct si2 fs2 =>
          cases t with
          | tStruct si3 tfs3 =>
            have hmv := mergeFull_struct ctx si3 tfs3 si2 fs2 hgv
            show mergeFields ctx (.cons mt (.vStruct si2 fs2) vrest)
                (.cons mt (zeroVal (.tStruct si3 tfs3)) (zeroFields trest)) = _
            simp [mergeFields, hwg, hr, hmv, hrest]
          | tInt => simp [goodVal] at hgv
          | tUInt => simp [goodVal] at hgv
          | tFloat => simp [goodVal] at hgv
          | tStr => simp [goodVal] at hgv
          | tBool => simp [goodVal] at hgv
          | tPtr t0 => simp [goodVal] at hgv
          | tSlice t0 => simp [goodVal] at hgv
          | tMap t0 => simp [goodVal] at hgv
        | vInt n => simp [isRecursibleType] at hr
        | vUInt n => simp [isRecursibleType] at hr
        | vFloat q => simp [isRecursibleType] at hr
        | vStr s => simp [isRecursibleType] at hr
        | vBool b => simp [isRecursibleType] at hr
        | vPtrNil => simp [isRecursibleType] at hr
        | vPtr v0 => simp [isRecursibleType] at hr
        | vSlice es0 => simp [isRecursibleType] at hr
        | vMap kvs0 => simp [isRecursibleType] at hr
end

/-- C9 (amended).  On the round-trip domain (`goodVal`: the record inhabits
its type; every read and write right named anywhere in the type is held; no
field is suppressed with a json name of "-", embedded, or empty-named; no
struct uses a custom marshaler or unmarshaler; wire names are distinct and
resolve back to their fields in the decoder; no optional reference is
absent; map entries are shapes the decoder reproduces identically), with
fuel of at least the record's size: serializing the record, decoding the
wire tree into a zero scratch value of the record's type and merging it
into a zero target reproduces the record exactly. -/
theorem serialize_then_read_json_roundtrip (ctx : Option Principal) (si : StructInfo)
    (tfs : FieldTyList) (fs : FieldList)
    (hg : goodVal ctx (.tStruct si tfs) (.vStruct si fs) = true)
    (sfuel dfuel : Nat) (hs : szVal (.vStruct si fs) ≤ sfuel)
    (hd : szTy (.tStruct si tfs) + szVal (.vStruct si fs) ≤ dfuel) :
    ∃ w, safeSerialize ctx sfuel (.vStruct si fs) = .ok w
      ∧ ReadJSON ctx (decodeVal dfuel (.tStruct si tfs) w) (zeroVal (.tStruct si tfs))
          = (none, .vStruct si fs) := by
  obtain ⟨w, hser, hsz, _, hdec⟩ := serializeRT ctx (.tStruct si tfs) (.vStruct si fs) hg
  refine ⟨w, hser sfuel hs, ?_⟩
  rw [hdec dfuel (by omega)]
  simp only [ReadJSON]
  rw [mergeFull_struct ctx si tfs si fs hg]

/-- C9 counterexample.  The claim quantifies over every record and a
capability set holding every right named in its type.  Take a record whose
one field `Secret` is suppressed from serialization with `json:"-"` and
carries the value "x" (its type names no rights, so any authenticated
principal holds them all): serialization emits an empty wire tree, and
reading that tree back into a zero target leaves `Secret` at its zero
value "" — the field's write-right requirement is unset, yet its original
value is not reproduced. -/
theorem roundtrip_loses_suppressed_field :
    safeSerialize (some ⟨"u", 1, []⟩) 5
        (.vStruct ⟨false, false⟩ (.cons ⟨"Secret", "-", "", "", false⟩ (.vStr "x") .nil))
      = .ok (.vMap .nil)
    ∧ ReadJSON (some ⟨"u", 1, []⟩)
        (decodeVal 5 (.tStruct ⟨false, false⟩ (.cons ⟨"Secret", "-", "", "", false⟩ .tStr .nil))
          (.vMap .nil))
        (zeroVal (.tStruct ⟨false, false⟩ (.cons ⟨"Secret", "-", "", "", false⟩ .tStr .nil)))
      = (none, .vStruct ⟨false, false⟩ (.cons ⟨"Secret", "-", "", "", false⟩ (.vStr "") .nil))
    ∧ (Val.vStruct ⟨false, false⟩ (.cons ⟨"Secret", "-", "", "", false⟩ (.vStr "") .nil))
      ≠ (.vStruct ⟨false, false⟩ (.cons ⟨"Secret", "-", "", "", false⟩ (.vStr "x") .nil)) :=
  ⟨rfl, rfl, by decide⟩

/-- Witness for C9 (amended) at the spec's concrete scenario with the
"admin" right held: the round trip reproduces the record. -/
theorem serialize_then_read_json_roundtrip_witness :
    ∃ w, safeSerialize (some ⟨"u", 1, ["admin"]⟩) 10
        (.vStruct ⟨false, false⟩
          (.cons ⟨"Name", "", "", "", false⟩ (.vStr "x")
            (.cons ⟨"Secret", "", "admin", "admin", false⟩ (.vStr "y") .nil)))
      = .ok w
      ∧ ReadJSON (some ⟨"u", 1, ["admin"]⟩)
          (decodeVal 20
            (.tStruct ⟨false, false⟩
              (.cons ⟨"Name", "", "", "", false⟩ .tStr
                (.cons ⟨"Secret", "", "admin", "admin", false⟩ .tStr .nil))) w)
          (zeroVal (.tStruct ⟨false, false⟩
            (.cons ⟨"Name", "", "", "", false⟩ .tStr
              (.cons ⟨"Secret", "", "admin", "admin", false⟩ .tStr .nil))))
        = (none, .vStruct ⟨false, false⟩
            (.cons ⟨"Name", "", "", "", false⟩ (.vStr "x")
              (.cons ⟨"Secret", "", "admin", "admin", false⟩ (.vStr "y") .nil))) :=
  serialize_then_read_json_roundtrip (some ⟨"u", 1, ["admin"]⟩) ⟨false, false⟩
    (.cons ⟨"Name", "", "", "", false⟩ .tStr
      (.cons ⟨"Secret", "", "admin", "admin", false⟩ .tStr .nil))
    (.cons ⟨"Name", "", "", "", false⟩ (.vStr "x")
      (.cons ⟨"Secret", "", "admin", "admin", false⟩ (.vStr "y") .nil))
    (by decide) 10 20 (by decide) (by decide)
